import Mathlib

/-!
Verification development for the `bit-graph` directed-graph storage library.

The library offers three interchangeable backends for one adjacency relation —
a dense byte matrix (`AdjGraph`, src/baseline.rs), a bit-packed matrix with a
mirrored transpose (`BitGraph`, src/bit/mod.rs), and an open-addressing hash
table with tombstones (`PairHashTable`/`HashGraph`, src/hash/mod.rs) — plus
resumable breadth-first and depth-first traversal (src/search/bfs.rs,
src/search/dfs.rs).

This file shallowly embeds those components: machine words (`usize`, 64-bit)
are `Nat` with explicit `% 2 ^ 64` where wrapping matters, `Vec` contents are
functions or lists, loops become structural recursion (with an explicit fuel
argument where the source loop's termination is itself in question; fuel
exhaustion is `Option.none` and models divergence or an out-of-bounds panic).
-/

set_option maxHeartbeats 1000000

namespace BitGraphRs

/-- `WORD_BITS` from src/bit/mod.rs: the library targets 64-bit `usize`. -/
def WORD_BITS : Nat := 64

/-- `usize::MAX = 2 ^ 64 - 1`. -/
def USIZE_MAX : Nat := 2 ^ WORD_BITS - 1

/-- `get_bit` (src/bit/mod.rs lines 87-93): `if (n >> k) & 1 == 0 { false } else { true }`. -/
def get_bit (n k : Nat) : Bool := if (n >>> k) &&& 1 = 0 then false else true

/-- `set_bit` (src/bit/mod.rs): `n | (1 << k)`. -/
def set_bit (n k : Nat) : Nat := n ||| (1 <<< k)

/-- `unset_bit` (src/bit/mod.rs): `n & !(1 << k)`; Rust `!` is the 64-bit complement,
i.e. xor with `usize::MAX` (all uses have `k < 64`). -/
def unset_bit (n k : Nat) : Nat := n &&& (USIZE_MAX ^^^ (1 <<< k))

/-- `toggle_bit` (src/bit/mod.rs): `n ^ (1 << k)`. -/
def toggle_bit (n k : Nat) : Nat := n ^^^ (1 <<< k)

/-- `single_bit_mask` (src/bit/mod.rs): `1 << offset`. -/
def single_bit_mask (offset : Nat) : Nat := 1 <<< offset

/-- `mask_n_bits` (src/bit/mod.rs): `usize::MAX << n`, truncated to the 64-bit word
(all call sites have `n < 64`, so the Rust shift does not overflow-panic). -/
def mask_n_bits (n : Nat) : Nat := (USIZE_MAX <<< n) % 2 ^ WORD_BITS

/-- Rust `!x` on `usize`: 64-bit bitwise complement. -/
def word_not (x : Nat) : Nat := USIZE_MAX ^^^ x

/-- `bool_to_mask` (src/bit/mod.rs): `(-((b as isize) & 1)) as usize`, i.e. all ones
when `b` is true, zero otherwise. -/
def bool_to_mask (b : Bool) : Nat := if b then USIZE_MAX else 0

/-- `clear_lowest_set_bit` (src/bit/mod.rs): `w & (w - 1)` (only reached with `w ≠ 0`). -/
def clear_lowest_set_bit (w : Nat) : Nat := w &&& (w - 1)

/-- Helper for `ctz`: scan bits of `w` upward from `i` with `fuel` bits left,
returning the first set position (or `i + fuel` when none is set). -/
def ctzAux (w : Nat) : Nat → Nat → Nat
  | 0, i => i
  | fuel + 1, i => if w.testBit i then i else ctzAux w fuel (i + 1)

/-- Models `usize::trailing_zeros`: index of the lowest set bit of the word `w`
(64 when `w = 0`), as used by the neighbor-enumeration scan in src/bit/mod.rs. -/
def ctz (w : Nat) : Nat := ctzAux w 64 0

theorem get_bit_eq_testBit (n k : Nat) : get_bit n k = Nat.testBit n k := by
  simp only [get_bit, Nat.testBit_to_div_mod, Nat.shiftRight_eq_div_pow, Nat.and_one_is_mod]
  rcases Nat.mod_two_eq_zero_or_one (n / 2 ^ k) with h | h <;> simp [h]

theorem testBit_set_bit (n k j : Nat) :
    (set_bit n k).testBit j = (n.testBit j || decide (j = k)) := by
  simp only [set_bit, Nat.testBit_or, Nat.shiftLeft_eq, one_mul, Nat.testBit_two_pow]
  by_cases h : j = k
  · simp [h]
  · simp [h, Ne.symm h]

theorem testBit_unset_bit (n k j : Nat) (hk : k < 64) (hj : j < 64) :
    (unset_bit n k).testBit j = (n.testBit j && decide (j ≠ k)) := by
  simp only [unset_bit, USIZE_MAX, WORD_BITS, Nat.testBit_and, Nat.testBit_xor,
    Nat.testBit_two_pow_sub_one, Nat.shiftLeft_eq, one_mul, Nat.testBit_two_pow]
  by_cases h : j = k
  · simp [h, hk]
  · simp [h, hj, Ne.symm h]

theorem set_bit_lt (n k : Nat) (hn : n < 2 ^ 64) (hk : k < 64) :
    set_bit n k < 2 ^ 64 := by
  have h1 : (1 <<< k) < 2 ^ 64 := by
    rw [Nat.shiftLeft_eq, one_mul]
    exact Nat.pow_lt_pow_right (by norm_num) hk
  exact Nat.or_lt_two_pow hn h1

theorem unset_bit_le (n k : Nat) : unset_bit n k ≤ n := Nat.and_le_left

theorem ctzAux_ge (w : Nat) : ∀ fuel i, i ≤ ctzAux w fuel i := by
  intro fuel
  induction fuel with
  | zero => intro i; simp [ctzAux]
  | succ f ih =>
    intro i
    simp only [ctzAux]
    split
    · exact le_refl i
    · exact le_trans (Nat.le_succ i) (ih (i + 1))

theorem ctzAux_le (w : Nat) : ∀ fuel i, ctzAux w fuel i ≤ i + fuel := by
  intro fuel
  induction fuel with
  | zero => intro i; simp [ctzAux]
  | succ f ih =>
    intro i
    simp only [ctzAux]
    split
    · omega
    · have := ih (i + 1); omega

theorem ctzAux_clear (w : Nat) :
    ∀ fuel i j, i ≤ j → j < ctzAux w fuel i → w.testBit j = false := by
  intro fuel
  induction fuel with
  | zero => intro i j hij hj; simp only [ctzAux] at hj; omega
  | succ f ih =>
    intro i j hij hj
    simp only [ctzAux] at hj
    by_cases h : w.testBit i
    · simp [h] at hj; omega
    · simp [h] at hj
      rcases Nat.eq_or_lt_of_le hij with rfl | hlt
      · simpa using h
      · exact ih (i + 1) j hlt hj

theorem ctzAux_found (w : Nat) :
    ∀ fuel i, ctzAux w fuel i < i + fuel → w.testBit (ctzAux w fuel i) = true := by
  intro fuel
  induction fuel with
  | zero => intro i h; simp only [ctzAux] at h; omega
  | succ f ih =>
    intro i h
    simp only [ctzAux] at h ⊢
    by_cases hb : w.testBit i
    · rw [if_pos hb]; exact hb
    · rw [if_neg hb] at h ⊢
      exact ih (i + 1) (by omega)

theorem ctzAux_min (w : Nat) :
    ∀ fuel i j, i ≤ j → j < i + fuel → w.testBit j → ctzAux w fuel i ≤ j := by
  intro fuel
  induction fuel with
  | zero => intro i j h1 h2; omega
  | succ f ih =>
    intro i j h1 h2 hj
    simp only [ctzAux]
    by_cases hb : w.testBit i
    · simpa [hb] using h1
    · simp only [hb, if_false]
      rcases Nat.eq_or_lt_of_le h1 with rfl | hlt
      · simp [hb] at hj
      · exact ih (i + 1) j hlt (by omega) hj

theorem ctz_le (w : Nat) : ctz w ≤ 64 := by
  simpa using ctzAux_le w 64 0

theorem testBit_lt_ctz {w j : Nat} (h : j < ctz w) : w.testBit j = false :=
  ctzAux_clear w 64 0 j (Nat.zero_le j) h

theorem testBit_lt_64_of_lt {w k : Nat} (hw : w < 2 ^ 64) (h : w.testBit k) : k < 64 := by
  by_contra hk
  have : w < 2 ^ k := lt_of_lt_of_le hw (Nat.pow_le_pow_right (by norm_num) (by omega))
  simp [Nat.testBit_lt_two_pow this] at h

theorem ctz_lt_64 {w : Nat} (hw : w ≠ 0) (hlt : w < 2 ^ 64) : ctz w < 64 := by
  obtain ⟨i, hi⟩ := Nat.ne_zero_implies_bit_true hw
  have hi64 : i < 64 := testBit_lt_64_of_lt hlt hi
  have := ctzAux_min w 64 0 i (Nat.zero_le i) (by omega) hi
  have := ctzAux_ge w 64 0
  unfold ctz
  omega

theorem testBit_ctz {w : Nat} (hw : w ≠ 0) (hlt : w < 2 ^ 64) :
    w.testBit (ctz w) = true := by
  have h := ctz_lt_64 hw hlt
  have h2 : ctzAux w 64 0 < 64 := h
  exact ctzAux_found w 64 0 (by omega)

theorem testBit_two_pow_mul_add {m q r : Nat} (hr : r < 2 ^ m) (j : Nat) :
    (2 ^ m * q + r).testBit j = if j < m then r.testBit j else q.testBit (j - m) := by
  by_cases hj : j < m
  · rw [if_pos hj]
    have hmod : (2 ^ m * q + r) % 2 ^ m = r := by
      rw [Nat.add_comm, Nat.add_mul_mod_self_left, Nat.mod_eq_of_lt hr]
    have := Nat.testBit_mod_two_pow (2 ^ m * q + r) m j
    rw [hmod] at this
    simp [hj] at this
    exact this.symm
  · rw [if_neg hj]
    have hdiv : (2 ^ m * q + r) / 2 ^ m = q := by
      rw [Nat.add_comm, Nat.add_mul_div_left _ _ (Nat.pos_pow_of_pos m (by norm_num)),
        Nat.div_eq_of_lt hr, Nat.zero_add]
    have h1 : (2 ^ m * q + r).testBit j = ((2 ^ m * q + r) >>> m).testBit (j - m) := by
      rw [Nat.testBit_shiftRight]
      congr 1
      omega
    rw [h1, Nat.shiftRight_eq_div_pow, hdiv]

theorem clear_lowest_lt {w : Nat} (hw : w ≠ 0) : clear_lowest_set_bit w < w :=
  lt_of_le_of_lt (Nat.and_le_right) (by omega)

theorem testBit_clear_lowest {w : Nat} (hw : w ≠ 0) (hlt : w < 2 ^ 64) (j : Nat) :
    (clear_lowest_set_bit w).testBit j = (w.testBit j && decide (ctz w < j)) := by
  set c := ctz w with hc
  have hbc : w.testBit c = true := testBit_ctz hw hlt
  have hmod : w % 2 ^ c = 0 := by
    apply Nat.zero_of_testBit_eq_false
    intro i
    rw [Nat.testBit_mod_two_pow]
    by_cases hi : i < c
    · simp [testBit_lt_ctz hi]
    · simp [hi]
  have hq : w = 2 ^ (c + 1) * (w / 2 ^ (c + 1)) + 2 ^ c := by
    have h1 : w = 2 ^ c * (w / 2 ^ c) := by
      have := Nat.div_add_mod w (2 ^ c)
      omega
    have h2 : w / 2 ^ c % 2 = 1 := by
      have := @Nat.testBit_to_div_mod c w
      rw [hbc] at this
      exact of_decide_eq_true this.symm
    have h3 : w / 2 ^ c = 2 * (w / 2 ^ (c + 1)) + 1 := by
      have hd : w / 2 ^ c / 2 = w / 2 ^ (c + 1) := by
        rw [Nat.div_div_eq_div_mul, pow_succ]
      have := Nat.div_add_mod (w / 2 ^ c) 2
      omega
    calc w = 2 ^ c * (w / 2 ^ c) := h1
    _ = 2 ^ c * (2 * (w / 2 ^ (c + 1)) + 1) := by rw [← h3]
    _ = 2 ^ (c + 1) * (w / 2 ^ (c + 1)) + 2 ^ c := by ring
  set q := w / 2 ^ (c + 1) with hqdef
  have hsub : w - 1 = 2 ^ (c + 1) * q + (2 ^ c - 1) := by
    have : (0:Nat) < 2 ^ c := Nat.pos_pow_of_pos c (by norm_num)
    omega
  have hpow : (2:Nat) ^ c < 2 ^ (c + 1) := by
    exact Nat.pow_lt_pow_right (by norm_num) (Nat.lt_succ_self c)
  have hw1 : ∀ i, w.testBit i = if i < c + 1 then ((2:Nat) ^ c).testBit i else q.testBit (i - (c + 1)) := by
    intro i
    conv_lhs => rw [hq]
    exact testBit_two_pow_mul_add hpow i
  have hw2 : ∀ i, (w - 1).testBit i =
      if i < c + 1 then ((2:Nat) ^ c - 1).testBit i else q.testBit (i - (c + 1)) := by
    intro i
    conv_lhs => rw [hsub]
    exact testBit_two_pow_mul_add (by omega) i
  rw [clear_lowest_set_bit, Nat.testBit_and, hw1 j, hw2 j]
  rcases Nat.lt_trichotomy j c with hj | hj | hj
  · simp [hj, Nat.testBit_two_pow, Nat.ne_of_gt hj, Nat.lt_succ_of_lt hj, Nat.not_lt_of_gt hj]
  · subst hj
    simp [Nat.lt_succ_self, Nat.testBit_two_pow_sub_one]
  · rw [if_neg (by omega), if_neg (by omega)]
    simp [Nat.not_lt_of_gt hj]
    intro h
    omega

/-- Number of set bits of a 64-bit word (used only in proofs, as the fuel
measure of the per-word scan). -/
def popcnt (w : Nat) : Nat := ((List.range 64).filter (fun i => w.testBit i)).length

theorem length_filter_le_of_imp {α} {l : List α} {p q : α → Bool}
    (sub : ∀ x ∈ l, q x = true → p x = true) :
    (l.filter q).length ≤ (l.filter p).length := by
  induction l with
  | nil => simp
  | cons a l ih =>
    have ihl := ih (fun x hx => sub x (List.mem_cons_of_mem a hx))
    by_cases hq : q a = true
    · have hp : p a = true := sub a (List.mem_cons_self a l) hq
      simp [List.filter_cons, hq, hp]
      omega
    · simp only [List.filter_cons, Bool.not_eq_true] at *
      rw [if_neg (by simp [hq])]
      by_cases hp : p a = true
      · rw [if_pos (by simp [hp])]
        simp
        omega
      · rw [if_neg (by simp [hp])]
        exact ihl

theorem length_filter_lt_of_mem {α} {l : List α} {p q : α → Bool}
    (sub : ∀ x ∈ l, q x = true → p x = true) {x : α} (hx : x ∈ l) (hpx : p x = true)
    (hqx : q x = false) : (l.filter q).length < (l.filter p).length := by
  induction l with
  | nil => simp at hx
  | cons a l ih =>
    have subl : ∀ y ∈ l, q y = true → p y = true :=
      fun y hy => sub y (List.mem_cons_of_mem a hy)
    rcases List.mem_cons.mp hx with rfl | hxl
    · simp only [List.filter_cons, hpx, if_pos]
      rw [if_neg (by simp [hqx])]
      have := length_filter_le_of_imp subl
      simp
      omega
    · have ihl := ih subl hxl
      by_cases hq : q a = true
      · have hp : p a = true := sub a (List.mem_cons_self a l) hq
        simp [List.filter_cons, hq, hp]
        omega
      · simp only [List.filter_cons]
        rw [if_neg (by simp [hq])]
        by_cases hp : p a = true
        · rw [if_pos (by simp [hp])]
          simp
          omega
        · rw [if_neg (by simp [hp])]
          exact ihl

theorem popcnt_le (w : Nat) : popcnt w ≤ 64 := by
  have := List.length_filter_le (fun i => w.testBit i) (List.range 64)
  simpa [popcnt] using this

theorem popcnt_pos {w : Nat} (hw : w ≠ 0) (hlt : w < 2 ^ 64) : 0 < popcnt w := by
  have hc : ctz w ∈ (List.range 64).filter (fun i => w.testBit i) := by
    rw [List.mem_filter]
    exact ⟨List.mem_range.mpr (ctz_lt_64 hw hlt), testBit_ctz hw hlt⟩
  have := List.length_pos.mpr (List.ne_nil_of_mem hc)
  simpa [popcnt] using this

theorem popcnt_clear_lt {w : Nat} (hw : w ≠ 0) (hlt : w < 2 ^ 64) :
    popcnt (clear_lowest_set_bit w) < popcnt w := by
  apply length_filter_lt_of_mem
  · intro x _ hx
    rw [testBit_clear_lowest hw hlt] at hx
    simp only [Bool.and_eq_true] at hx
    exact hx.1
  · exact List.mem_range.mpr (ctz_lt_64 hw hlt)
  · exact testBit_ctz hw hlt
  · rw [testBit_clear_lowest hw hlt]
    simp

/-- The nonzero branch of the neighbor-scan loop in `outgoing_edges_of`
(src/bit/mod.rs lines 196-205): repeatedly emit `trailing_zeros` of the word
and clear its lowest set bit until the word is zero. The fuel bounds the number
of iterations; 64 always suffices for a 64-bit word (one per set bit). -/
def word_scan_aux : Nat → Nat → List Nat
  | 0, _ => []
  | fuel + 1, w =>
    if w = 0 then [] else ctz w :: word_scan_aux fuel (clear_lowest_set_bit w)

/-- All positions emitted for one (masked) word, in loop order. -/
def word_scan (w : Nat) : List Nat := word_scan_aux 64 w

theorem word_scan_aux_mem :
    ∀ w, w < 2 ^ 64 → ∀ fuel, popcnt w ≤ fuel →
      ∀ j, j ∈ word_scan_aux fuel w ↔ w.testBit j = true := by
  intro w
  induction w using Nat.strong_induction_on with
  | _ w ih =>
    intro hlt fuel hfuel j
    by_cases hw : w = 0
    · subst hw
      cases fuel <;> simp [word_scan_aux]
    · cases fuel with
      | zero => exact absurd hfuel (by have := popcnt_pos hw hlt; omega)
      | succ f =>
        rw [word_scan_aux, if_neg hw]
        have hcl : clear_lowest_set_bit w < w := clear_lowest_lt hw
        have hcl64 : clear_lowest_set_bit w < 2 ^ 64 := lt_of_le_of_lt Nat.and_le_left hlt
        have hclf : popcnt (clear_lowest_set_bit w) ≤ f := by
          have := popcnt_clear_lt hw hlt
          omega
        rw [List.mem_cons, ih _ hcl hcl64 f hclf j, testBit_clear_lowest hw hlt j]
        constructor
        · rintro (rfl | h)
          · exact testBit_ctz hw hlt
          · simp only [Bool.and_eq_true] at h
            exact h.1
        · intro h
          rcases Nat.lt_trichotomy j (ctz w) with hj | hj | hj
          · rw [testBit_lt_ctz hj] at h; exact absurd h (by simp)
          · exact Or.inl hj
          · exact Or.inr (by simp [h, hj])

theorem word_scan_aux_sorted :
    ∀ w, w < 2 ^ 64 → ∀ fuel, popcnt w ≤ fuel →
      List.Pairwise (· < ·) (word_scan_aux fuel w) := by
  intro w
  induction w using Nat.strong_induction_on with
  | _ w ih =>
    intro hlt fuel hfuel
    by_cases hw : w = 0
    · subst hw
      cases fuel <;> simp [word_scan_aux]
    · cases fuel with
      | zero => exact absurd hfuel (by have := popcnt_pos hw hlt; omega)
      | succ f =>
        rw [word_scan_aux, if_neg hw]
        have hcl : clear_lowest_set_bit w < w := clear_lowest_lt hw
        have hcl64 : clear_lowest_set_bit w < 2 ^ 64 := lt_of_le_of_lt Nat.and_le_left hlt
        have hclf : popcnt (clear_lowest_set_bit w) ≤ f := by
          have := popcnt_clear_lt hw hlt
          omega
        constructor
        · intro j hj
          rw [word_scan_aux_mem _ hcl64 f hclf j, testBit_clear_lowest hw hlt j] at hj
          simp only [Bool.and_eq_true] at hj
          exact of_decide_eq_true hj.2
        · exact ih _ hcl hcl64 f hclf

theorem word_scan_mem {w : Nat} (hlt : w < 2 ^ 64) (j : Nat) :
    j ∈ word_scan w ↔ w.testBit j = true :=
  word_scan_aux_mem w hlt 64 (popcnt_le w) j

theorem word_scan_sorted {w : Nat} (hlt : w < 2 ^ 64) :
    List.Pairwise (· < ·) (word_scan w) :=
  word_scan_aux_sorted w hlt 64 (popcnt_le w)

theorem mask_n_bits_lt (n : Nat) : mask_n_bits n < 2 ^ 64 := by
  have : (0:Nat) < 2 ^ 64 := by norm_num
  simpa [mask_n_bits, WORD_BITS] using Nat.mod_lt _ this

theorem testBit_mask_n_bits (n k : Nat) :
    (mask_n_bits n).testBit k = (decide (n ≤ k) && decide (k < 64)) := by
  simp only [mask_n_bits, USIZE_MAX, WORD_BITS, Nat.testBit_mod_two_pow,
    Nat.testBit_shiftLeft, Nat.testBit_two_pow_sub_one]
  by_cases h1 : k < 64 <;> by_cases h2 : n ≤ k <;> simp [h1, h2] <;> omega

theorem testBit_word_not {x : Nat} (hx : x < 2 ^ 64) (k : Nat) :
    (word_not x).testBit k = (decide (k < 64) && !(x.testBit k)) := by
  simp only [word_not, USIZE_MAX, WORD_BITS, Nat.testBit_xor, Nat.testBit_two_pow_sub_one]
  by_cases h1 : k < 64
  · simp [h1]
  · have : x.testBit k = false := by
      apply Nat.testBit_lt_two_pow
      exact lt_of_lt_of_le hx (Nat.pow_le_pow_right (by norm_num) (by omega))
    simp [h1, this]

theorem testBit_bool_to_mask (b : Bool) (k : Nat) :
    (bool_to_mask b).testBit k = (b && decide (k < 64)) := by
  cases b
  · simp [bool_to_mask]
  · simp only [bool_to_mask, if_true, USIZE_MAX, WORD_BITS, Nat.testBit_two_pow_sub_one,
      Bool.true_and]

/-! ## The bit-packed matrix backend (`BitGraph`, src/bit/mod.rs) -/

/-- `BitGraph` (src/bit/mod.rs lines 7-17).  `cap` models `nodes.capacity()`: the
construction-time capacity of the node vector, which every address computation
multiplies row indices by.  (Growing the node vector past this capacity would
reallocate and silently shift every row — the spec declares that out of scope,
so reachable states keep `count ≤ cap`.)  The two word arrays `edges` and
`edges_transpose` are total functions from word index to word value; words hold
only bits `0..64`. -/
structure BitGraph where
  cap : Nat
  count : Nat
  nodes : List Nat
  edges : Nat → Nat
  edges_transpose : Nat → Nat

namespace BitGraph

/-- `BitGraph::with_capacity(size)`: zeroed word arrays, no nodes. -/
def with_capacity (size : Nat) : BitGraph :=
  { cap := size, count := 0, nodes := [], edges := fun _ => 0, edges_transpose := fun _ => 0 }

/-- The `row + column` word index computed (identically) by `set_edge_of_both`,
`set_edge_of_tranpose`, `has_edge` and `get_edge`: `row = cap*from / 64`,
`column = to / 64`, incremented when the offset sum carries past the word. -/
def word_index (cap fm tn : Nat) : Nat :=
  let row := cap * fm / WORD_BITS
  let column := tn / WORD_BITS
  let offset := tn % WORD_BITS + cap * fm % WORD_BITS
  if offset ≥ WORD_BITS then row + (column + 1) else row + column

/-- The in-word bit offset computed by the same address calculation. -/
def bit_offset (cap fm tn : Nat) : Nat :=
  let offset := tn % WORD_BITS + cap * fm % WORD_BITS
  if offset ≥ WORD_BITS then offset - WORD_BITS else offset

/-- `BitGraph::set_edge_of_tranpose` (src/bit/mod.rs lines 59-78): applies the
bit operation `f` to the transpose word for `(from, to)`. -/
def set_edge_of_tranpose (g : BitGraph) (fm tn : Nat) (f : Nat → Nat → Nat) : BitGraph :=
  { g with edges_transpose :=
      (Function.update g.edges_transpose (word_index g.cap fm tn)
        (f (g.edges_transpose (word_index g.cap fm tn)) (bit_offset g.cap fm tn))) }

/-- `BitGraph::set_edge_of_both` (src/bit/mod.rs lines 34-57): applies `f` to the
forward word for `(from, to)` and to the transpose word for `(to, from)`, and
returns the pre-update value of the forward bit. -/
def set_edge_of_both (g : BitGraph) (fm tn : Nat) (f : Nat → Nat → Nat) : Bool × BitGraph :=
  let word := g.edges (word_index g.cap fm tn)
  let g' := { g with edges :=
      (Function.update g.edges (word_index g.cap fm tn) (f word (bit_offset g.cap fm tn))) }
  (get_bit word (bit_offset g.cap fm tn), set_edge_of_tranpose g' tn fm f)

/-- `BitGraph::add_edge`: `set_edge_of_both(from, to, set_bit)`. -/
def add_edge (g : BitGraph) (fm tn : Nat) : Bool × BitGraph :=
  set_edge_of_both g fm tn set_bit

/-- `BitGraph::remove_edge`: `set_edge_of_both(from, to, unset_bit)`. -/
def remove_edge (g : BitGraph) (fm tn : Nat) : Bool × BitGraph :=
  set_edge_of_both g fm tn unset_bit

/-- `BitGraph::has_edge` (src/bit/mod.rs lines 134-147). -/
def has_edge (g : BitGraph) (fm tn : Nat) : Bool :=
  get_bit (g.edges (word_index g.cap fm tn)) (bit_offset g.cap fm tn)

/-- `BitGraph::set_edge` (src/bit/mod.rs lines 322-328): weight `true` adds,
weight `false` removes. -/
def set_edge (g : BitGraph) (fm tn : Nat) (weight : Bool) : Bool × BitGraph :=
  if weight then add_edge g fm tn else remove_edge g fm tn

/-- `BitGraph::push_node`: increments `count`, appends the value, returns the
new node's index (`nodes.len() - 1`). -/
def push_node (g : BitGraph) (value : Nat) : Nat × BitGraph :=
  (g.nodes.length, { g with count := g.count + 1, nodes := g.nodes ++ [value] })

/-- The scanning loop of `outgoing_edges_of`/`incoming_edges_of`
(src/bit/mod.rs lines 185-206).  One recursion level per word: the `w != 0`
branch of the source loop (emit `trailing_zeros`, clear the lowest set bit) is
`word_scan`, the `w == 0` branch either stops (`index == end`) or loads the
next word masked above `end_offset` when it is the last word.  `left` counts
the words still to scan (`end - index + 1`), which the source loop's
index-vs-`end` test bounds. -/
def scan_words (wordAt : Nat → Nat) (start start_offset endw end_offset : Nat) :
    Nat → Nat → Nat → List Nat
  | 0, _, _ => []
  | left + 1, j, w =>
    (word_scan w).map (fun k => k + WORD_BITS * (j - start) - start_offset) ++
      (if j = endw then [] else
        scan_words wordAt start start_offset endw end_offset left (j + 1)
          (wordAt (j + 1) &&&
            (word_not (mask_n_bits end_offset) ||| bool_to_mask (decide (j + 1 ≠ endw)))))

/-- Row scan shared by `outgoing_edges_of` and `incoming_edges_of`: computes
`start`, `start_offset`, `end`, `end_offset`, masks the first word below
`start_offset` (and above `end_offset` when the row is one word wide), then
scans word by word. -/
def row_scan (wordAt : Nat → Nat) (cap node_index : Nat) : List Nat :=
  let start := cap * node_index / WORD_BITS
  let start_offset := cap * node_index % WORD_BITS
  let endw := cap * (node_index + 1) / WORD_BITS
  let end_offset := cap * (node_index + 1) % WORD_BITS
  let w0 := wordAt start &&&
    (mask_n_bits start_offset &&&
      (word_not (mask_n_bits end_offset) ||| bool_to_mask (decide (start ≠ endw))))
  scan_words wordAt start start_offset endw end_offset (endw + 1 - start) start w0

/-- `BitGraph::outgoing_edges_of` (src/bit/mod.rs lines 149-208). -/
def outgoing_edges_of (g : BitGraph) (node_index : Nat) : List Nat :=
  row_scan g.edges g.cap node_index

/-- `BitGraph::incoming_edges_of` (src/bit/mod.rs lines 210-270): the same scan
over the transpose array. -/
def incoming_edges_of (g : BitGraph) (node_index : Nat) : List Nat :=
  row_scan g.edges_transpose g.cap node_index

theorem word_index_eq (cap fm tn : Nat) :
    word_index cap fm tn = (cap * fm + tn) / 64 := by
  simp only [word_index, WORD_BITS]
  split <;> omega

theorem bit_offset_eq (cap fm tn : Nat) :
    bit_offset cap fm tn = (cap * fm + tn) % 64 := by
  simp only [bit_offset, WORD_BITS]
  split <;> omega

theorem bit_offset_lt (cap fm tn : Nat) : bit_offset cap fm tn < 64 := by
  rw [bit_offset_eq]; omega

theorem testBit_ge_64 {w k : Nat} (hw : w < 2 ^ 64) (hk : 64 ≤ k) : w.testBit k = false := by
  apply Nat.testBit_lt_two_pow
  exact lt_of_lt_of_le hw (Nat.pow_le_pow_right (by norm_num) hk)

/-- Bit-level content of a non-first word loaded by the scan loop: the raw word
masked above `end_offset` when it is the row's last word. -/
theorem masked_next_testBit (wordAt : Nat → Nat) (hword : ∀ j, wordAt j < 2 ^ 64)
    {start start_offset endw end_offset : Nat} (hso : start_offset < 64)
    (heo : end_offset < 64) {j : Nat} (h1 : start ≤ j) (hj1 : j + 1 ≤ endw) (k : Nat) :
    (wordAt (j + 1) &&&
      (word_not (mask_n_bits end_offset) ||| bool_to_mask (decide (j + 1 ≠ endw)))).testBit k =
      ((wordAt (j + 1)).testBit k &&
        decide (64 * start + start_offset ≤ 64 * (j + 1) + k) &&
        decide (64 * (j + 1) + k < 64 * endw + end_offset)) := by
  rw [Nat.testBit_and, Nat.testBit_or,
    testBit_word_not (mask_n_bits_lt end_offset), testBit_mask_n_bits,
    testBit_bool_to_mask]
  by_cases hk64 : k < 64
  · rw [Bool.eq_iff_iff]
    simp only [Bool.and_eq_true, Bool.or_eq_true, Bool.not_eq_true',
      Bool.and_eq_false_iff, decide_eq_true_eq, decide_eq_false_iff_not]
    by_cases hbit : (wordAt (j + 1)).testBit k = true
    · simp only [hbit, eq_self_iff_true, true_and, and_true]
      omega
    · have hbf : (wordAt (j + 1)).testBit k = false := by simpa using hbit
      simp [hbf]
  · have hb : (wordAt (j + 1)).testBit k = false :=
      testBit_ge_64 (hword (j + 1)) (by omega)
    simp [hk64, hb]

/-- Bit-level content of the first word loaded by the row scan: masked below
`start_offset`, and above `end_offset` when the row fits in one word. -/
theorem masked_first_testBit (wordAt : Nat → Nat) (hword : ∀ j, wordAt j < 2 ^ 64)
    (cap u k : Nat) :
    (wordAt (cap * u / 64) &&&
      (mask_n_bits (cap * u % 64) &&&
        (word_not (mask_n_bits (cap * (u + 1) % 64)) |||
          bool_to_mask (decide (cap * u / 64 ≠ cap * (u + 1) / 64))))).testBit k =
      ((wordAt (cap * u / 64)).testBit k &&
        decide (64 * (cap * u / 64) + cap * u % 64 ≤ 64 * (cap * u / 64) + k) &&
        decide (64 * (cap * u / 64) + k <
          64 * (cap * (u + 1) / 64) + cap * (u + 1) % 64)) := by
  have hcapE : cap * (u + 1) = cap * u + cap := by ring
  simp only [Nat.testBit_and, Nat.testBit_or,
    testBit_word_not (mask_n_bits_lt (cap * (u + 1) % 64)), testBit_mask_n_bits,
    testBit_bool_to_mask]
  by_cases hk64 : k < 64
  · rw [Bool.eq_iff_iff]
    simp only [Bool.and_eq_true, Bool.or_eq_true, Bool.not_eq_true',
      Bool.and_eq_false_iff, decide_eq_true_eq, decide_eq_false_iff_not]
    by_cases hbit : (wordAt (cap * u / 64)).testBit k = true
    · simp only [hbit, eq_self_iff_true, true_and, and_true]
      omega
    · have hbf : (wordAt (cap * u / 64)).testBit k = false := by simpa using hbit
      simp [hbf]
  · have hb : (wordAt (cap * u / 64)).testBit k = false :=
      testBit_ge_64 (hword _) (by omega)
    simp [hk64, hb]

/-- Membership specification of the word-by-word scan: the emitted values are
exactly `a - (64*start + start_offset)` for the absolute bit addresses `a` in
the window `[64*start + start_offset, 64*endw + end_offset)` (from the current
word onward) whose bit is set. -/
theorem scan_words_mem (wordAt : Nat → Nat) (hword : ∀ j, wordAt j < 2 ^ 64)
    (start start_offset endw end_offset : Nat)
    (hso : start_offset < 64) (heo : end_offset < 64) :
    ∀ left j w, start ≤ j → j ≤ endw → left = endw + 1 - j → w < 2 ^ 64 →
      (∀ k, w.testBit k = ((wordAt j).testBit k &&
          decide (64 * start + start_offset ≤ 64 * j + k) &&
          decide (64 * j + k < 64 * endw + end_offset))) →
      ∀ x, x ∈ scan_words wordAt start start_offset endw end_offset left j w ↔
        ∃ a, 64 * j ≤ a ∧ 64 * start + start_offset ≤ a ∧ a < 64 * endw + end_offset ∧
          (wordAt (a / 64)).testBit (a % 64) = true ∧ x = a - (64 * start + start_offset) := by
  intro left
  induction left with
  | zero =>
    intro j w h1 h2 h3 hwlt hw x
    exact absurd h3 (by omega)
  | succ left ih =>
    intro j w h1 h2 h3 hwlt hw x
    have hsucc : start ≤ j + 1 := by omega
    have hstep : j ≠ endw → j + 1 ≤ endw := fun hne => by omega
    have hleft : j ≠ endw → left = endw + 1 - (j + 1) := fun hne => by omega
    have hmap : x ∈ (word_scan w).map (fun k => k + WORD_BITS * (j - start) - start_offset) ↔
        ∃ a, 64 * j ≤ a ∧ a < 64 * (j + 1) ∧ 64 * start + start_offset ≤ a ∧
          a < 64 * endw + end_offset ∧ (wordAt (a / 64)).testBit (a % 64) = true ∧
          x = a - (64 * start + start_offset) := by
      rw [List.mem_map]
      constructor
      · rintro ⟨k, hk, rfl⟩
        rw [word_scan_mem hwlt] at hk
        rw [hw k] at hk
        simp only [Bool.and_eq_true, decide_eq_true_eq] at hk
        obtain ⟨⟨hbit, hge⟩, hlt2⟩ := hk
        have hk64 : k < 64 := testBit_lt_64_of_lt (hword j) hbit
        refine ⟨64 * j + k, by omega, by omega, by omega, by omega, ?_, ?_⟩
        · have e1 : (64 * j + k) / 64 = j := by omega
          have e2 : (64 * j + k) % 64 = k := by omega
          rw [e1, e2]; exact hbit
        · simp only [WORD_BITS]; omega
      · rintro ⟨a, ha1, ha2, ha3, ha4, hbit, rfl⟩
        refine ⟨a - 64 * j, ?_, ?_⟩
        · rw [word_scan_mem hwlt, hw]
          have e1 : a / 64 = j := by omega
          have e2 : a % 64 = a - 64 * j := by omega
          rw [e1, e2] at hbit
          have e3 : 64 * j + (a - 64 * j) = a := by omega
          rw [e3, hbit]
          simp [ha3, ha4]
        · simp only [WORD_BITS]; omega
    have hrest : x ∈ (if j = endw then ([] : List Nat) else
        scan_words wordAt start start_offset endw end_offset left (j + 1)
          (wordAt (j + 1) &&&
            (word_not (mask_n_bits end_offset) ||| bool_to_mask (decide (j + 1 ≠ endw))))) ↔
        ∃ a, 64 * (j + 1) ≤ a ∧ 64 * start + start_offset ≤ a ∧ a < 64 * endw + end_offset ∧
          (wordAt (a / 64)).testBit (a % 64) = true ∧ x = a - (64 * start + start_offset) := by
      by_cases hje : j = endw
      · subst hje
        rw [if_pos rfl]
        simp only [List.not_mem_nil, false_iff, not_exists]
        intro a ha
        omega
      · rw [if_neg hje]
        have hw'lt : (wordAt (j + 1) &&&
            (word_not (mask_n_bits end_offset) ||| bool_to_mask (decide (j + 1 ≠ endw)))) < 2 ^ 64 :=
          lt_of_le_of_lt Nat.and_le_left (hword (j + 1))
        have hw' := masked_next_testBit wordAt hword hso heo h1 (hstep hje)
        exact ih (j + 1) (wordAt (j + 1) &&&
          (word_not (mask_n_bits end_offset) ||| bool_to_mask (decide (j + 1 ≠ endw))))
          hsucc (hstep hje) (hleft hje) hw'lt hw' x
    rw [scan_words, List.mem_append, hmap, hrest]
    constructor
    · rintro (⟨a, ha1, _, ha3, ha4, hbit, hx⟩ | ⟨a, ha1, ha3, ha4, hbit, hx⟩)
      · exact ⟨a, ha1, ha3, ha4, hbit, hx⟩
      · exact ⟨a, by omega, ha3, ha4, hbit, hx⟩
    · rintro ⟨a, ha1, ha3, ha4, hbit, hx⟩
      by_cases hcase : a < 64 * (j + 1)
      · exact Or.inl ⟨a, ha1, hcase, ha3, ha4, hbit, hx⟩
      · exact Or.inr ⟨a, by omega, ha3, ha4, hbit, hx⟩

/-- Membership specification of the row scan: exactly the destination indices
`t < cap` whose absolute bit `cap*node + t` is set in the scanned array. -/
theorem row_scan_mem (wordAt : Nat → Nat) (hword : ∀ j, wordAt j < 2 ^ 64) (cap u x : Nat) :
    x ∈ row_scan wordAt cap u ↔
      x < cap ∧ (wordAt ((cap * u + x) / 64)).testBit ((cap * u + x) % 64) = true := by
  have hS : 64 * (cap * u / 64) + cap * u % 64 = cap * u := by omega
  have hE : 64 * (cap * (u + 1) / 64) + cap * (u + 1) % 64 = cap * (u + 1) := by omega
  have hcapE : cap * (u + 1) = cap * u + cap := by ring
  have hle : cap * u / 64 ≤ cap * (u + 1) / 64 := Nat.div_le_div_right (by omega)
  have hw0lt : (wordAt (cap * u / 64) &&&
      (mask_n_bits (cap * u % 64) &&&
        (word_not (mask_n_bits (cap * (u + 1) % 64)) |||
          bool_to_mask (decide (cap * u / 64 ≠ cap * (u + 1) / 64))))) < 2 ^ 64 :=
    lt_of_le_of_lt Nat.and_le_left (hword _)
  have hw0 : ∀ k, (wordAt (cap * u / 64) &&&
      (mask_n_bits (cap * u % 64) &&&
        (word_not (mask_n_bits (cap * (u + 1) % 64)) |||
          bool_to_mask (decide (cap * u / 64 ≠ cap * (u + 1) / 64))))).testBit k =
      ((wordAt (cap * u / 64)).testBit k &&
        decide (64 * (cap * u / 64) + cap * u % 64 ≤ 64 * (cap * u / 64) + k) &&
        decide (64 * (cap * u / 64) + k <
          64 * (cap * (u + 1) / 64) + cap * (u + 1) % 64)) :=
    masked_first_testBit wordAt hword cap u
  have hspec := scan_words_mem wordAt hword (cap * u / 64) (cap * u % 64)
    (cap * (u + 1) / 64) (cap * (u + 1) % 64) (by omega) (by omega)
    (cap * (u + 1) / 64 + 1 - cap * u / 64) (cap * u / 64) _
    (le_refl _) hle rfl hw0lt hw0 x
  simp only [row_scan, WORD_BITS]
  rw [hspec]
  constructor
  · rintro ⟨a, _, ha2, ha3, hbit, rfl⟩
    rw [hS] at ha2
    rw [hE] at ha3
    refine ⟨by omega, ?_⟩
    rw [hS]
    have haeq : cap * u + (a - cap * u) = a := by omega
    rw [haeq]
    exact hbit
  · rintro ⟨hx, hbit⟩
    refine ⟨cap * u + x, by omega, by omega, by omega, hbit, by omega⟩


/-- The word-by-word scan emits a strictly ascending sequence. -/
theorem scan_words_sorted (wordAt : Nat → Nat) (hword : ∀ j, wordAt j < 2 ^ 64)
    (start start_offset endw end_offset : Nat)
    (hso : start_offset < 64) (heo : end_offset < 64) :
    ∀ left j w, start ≤ j → j ≤ endw → left = endw + 1 - j → w < 2 ^ 64 →
      (∀ k, w.testBit k = ((wordAt j).testBit k &&
          decide (64 * start + start_offset ≤ 64 * j + k) &&
          decide (64 * j + k < 64 * endw + end_offset))) →
      List.Pairwise (· < ·) (scan_words wordAt start start_offset endw end_offset left j w) := by
  intro left
  induction left with
  | zero =>
    intro j w h1 h2 h3 hwlt hw
    exact absurd h3 (by omega)
  | succ left ih =>
    intro j w h1 h2 h3 hwlt hw
    have hsucc : start ≤ j + 1 := by omega
    have hstep : j ≠ endw → j + 1 ≤ endw := fun hne => by omega
    have hleft : j ≠ endw → left = endw + 1 - (j + 1) := fun hne => by omega
    rw [scan_words, List.pairwise_append]
    refine ⟨?_, ?_, ?_⟩
    · rw [List.pairwise_map]
      apply List.Pairwise.imp_of_mem _ (word_scan_sorted hwlt)
      intro a b ha hb hab
      have ha' := (word_scan_mem hwlt a).mp ha
      rw [hw a] at ha'
      simp only [Bool.and_eq_true, decide_eq_true_eq] at ha'
      simp only [WORD_BITS]
      omega
    · by_cases hje : j = endw
      · rw [if_pos hje]
        exact List.Pairwise.nil
      · rw [if_neg hje]
        exact ih (j + 1) (wordAt (j + 1) &&&
            (word_not (mask_n_bits end_offset) ||| bool_to_mask (decide (j + 1 ≠ endw))))
          hsucc (hstep hje) (hleft hje)
          (lt_of_le_of_lt Nat.and_le_left (hword (j + 1)))
          (masked_next_testBit wordAt hword hso heo h1 (hstep hje))
    · intro x hx y hy
      rcases List.mem_map.mp hx with ⟨k, hk, rfl⟩
      have hk' := (word_scan_mem hwlt k).mp hk
      rw [hw k] at hk'
      simp only [Bool.and_eq_true, decide_eq_true_eq] at hk'
      obtain ⟨⟨hbit, hge⟩, hlt2⟩ := hk'
      have hk64 : k < 64 := testBit_lt_64_of_lt (hword j) hbit
      by_cases hje : j = endw
      · rw [if_pos hje] at hy
        simp at hy
      · rw [if_neg hje] at hy
        have hmem := (scan_words_mem wordAt hword start start_offset endw end_offset hso heo
          left (j + 1) (wordAt (j + 1) &&&
            (word_not (mask_n_bits end_offset) ||| bool_to_mask (decide (j + 1 ≠ endw))))
          hsucc (hstep hje) (hleft hje)
          (lt_of_le_of_lt Nat.and_le_left (hword (j + 1)))
          (masked_next_testBit wordAt hword hso heo h1 (hstep hje)) y).mp hy
        obtain ⟨a, ha1, ha3, ha4, hbita, rfl⟩ := hmem
        simp only [WORD_BITS]
        omega

/-- The row scan emits a strictly ascending (hence duplicate-free) sequence. -/
theorem row_scan_sorted (wordAt : Nat → Nat) (hword : ∀ j, wordAt j < 2 ^ 64)
    (cap u : Nat) : List.Pairwise (· < ·) (row_scan wordAt cap u) := by
  have hmono : cap * u ≤ cap * (u + 1) := Nat.mul_le_mul_left cap (by omega)
  have hle : cap * u / 64 ≤ cap * (u + 1) / 64 := Nat.div_le_div_right hmono
  simp only [row_scan, WORD_BITS]
  exact scan_words_sorted wordAt hword (cap * u / 64) (cap * u % 64)
    (cap * (u + 1) / 64) (cap * (u + 1) % 64) (by omega) (by omega)
    (cap * (u + 1) / 64 + 1 - cap * u / 64) (cap * u / 64) _
    (le_refl _) hle rfl (lt_of_le_of_lt Nat.and_le_left (hword _))
    (masked_first_testBit wordAt hword cap u)

/-- Proof-level view of the forward adjacency array: the bit at absolute
address `cap*fm + tn`, i.e. what `has_edge fm tn` reads. -/
def edge_bit (g : BitGraph) (fm tn : Nat) : Bool :=
  (g.edges ((g.cap * fm + tn) / 64)).testBit ((g.cap * fm + tn) % 64)

/-- Proof-level view of the transpose array: the bit at address `cap*fm + tn`
of `edges_transpose`. -/
def edge_bit_t (g : BitGraph) (fm tn : Nat) : Bool :=
  (g.edges_transpose ((g.cap * fm + tn) / 64)).testBit ((g.cap * fm + tn) % 64)

theorem has_edge_eq_edge_bit (g : BitGraph) (fm tn : Nat) :
    has_edge g fm tn = edge_bit g fm tn := by
  rw [has_edge, edge_bit, get_bit_eq_testBit, word_index_eq, bit_offset_eq]

theorem add_edge_fst (g : BitGraph) (fm tn : Nat) :
    (add_edge g fm tn).1 = has_edge g fm tn := rfl

theorem remove_edge_fst (g : BitGraph) (fm tn : Nat) :
    (remove_edge g fm tn).1 = has_edge g fm tn := rfl

theorem set_edge_fst (g : BitGraph) (fm tn : Nat) (w : Bool) :
    (set_edge g fm tn w).1 = has_edge g fm tn := by
  cases w <;> rfl

theorem set_bit_update_testBit (arr : Nat → Nat) (A B : Nat) :
    (Function.update arr (A / 64) (set_bit (arr (A / 64)) (A % 64)) (B / 64)).testBit (B % 64) =
      ((arr (B / 64)).testBit (B % 64) || decide (B = A)) := by
  by_cases h : B / 64 = A / 64
  · rw [h, Function.update_same, testBit_set_bit]
    by_cases hBA : B = A
    · simp [hBA]
    · have hne : ¬ B % 64 = A % 64 := by omega
      simp [hne, hBA]
  · rw [Function.update_noteq h]
    have hne : ¬ B = A := fun e => h (by rw [e])
    simp [hne]

theorem unset_bit_update_testBit (arr : Nat → Nat) (A B : Nat) :
    (Function.update arr (A / 64) (unset_bit (arr (A / 64)) (A % 64)) (B / 64)).testBit (B % 64) =
      ((arr (B / 64)).testBit (B % 64) && decide (B ≠ A)) := by
  by_cases h : B / 64 = A / 64
  · rw [h, Function.update_same, testBit_unset_bit _ _ _ (by omega) (by omega)]
    by_cases hBA : B = A
    · simp [hBA]
    · have hne : B % 64 ≠ A % 64 := by omega
      simp [hne, hBA]
  · rw [Function.update_noteq h]
    have hne : B ≠ A := fun e => h (by rw [e])
    simp [hne]

theorem add_edge_cap (g : BitGraph) (fm tn : Nat) : (add_edge g fm tn).2.cap = g.cap := rfl

theorem add_edge_count (g : BitGraph) (fm tn : Nat) :
    (add_edge g fm tn).2.count = g.count := rfl

theorem remove_edge_cap (g : BitGraph) (fm tn : Nat) :
    (remove_edge g fm tn).2.cap = g.cap := rfl

theorem remove_edge_count (g : BitGraph) (fm tn : Nat) :
    (remove_edge g fm tn).2.count = g.count := rfl

theorem add_edge_snd_edges (g : BitGraph) (fm tn : Nat) :
    (add_edge g fm tn).2.edges =
      Function.update g.edges (word_index g.cap fm tn)
        (set_bit (g.edges (word_index g.cap fm tn)) (bit_offset g.cap fm tn)) := rfl

theorem add_edge_snd_transpose (g : BitGraph) (fm tn : Nat) :
    (add_edge g fm tn).2.edges_transpose =
      Function.update g.edges_transpose (word_index g.cap tn fm)
        (set_bit (g.edges_transpose (word_index g.cap tn fm)) (bit_offset g.cap tn fm)) := rfl

theorem remove_edge_snd_edges (g : BitGraph) (fm tn : Nat) :
    (remove_edge g fm tn).2.edges =
      Function.update g.edges (word_index g.cap fm tn)
        (unset_bit (g.edges (word_index g.cap fm tn)) (bit_offset g.cap fm tn)) := rfl

theorem remove_edge_snd_transpose (g : BitGraph) (fm tn : Nat) :
    (remove_edge g fm tn).2.edges_transpose =
      Function.update g.edges_transpose (word_index g.cap tn fm)
        (unset_bit (g.edges_transpose (word_index g.cap tn fm)) (bit_offset g.cap tn fm)) := rfl

/-- `add_edge` sets exactly the forward bit at address `cap*fm + tn`. -/
theorem edge_bit_add (g : BitGraph) (fm tn u v : Nat) :
    edge_bit (add_edge g fm tn).2 u v =
      (edge_bit g u v || decide (g.cap * u + v = g.cap * fm + tn)) := by
  unfold edge_bit
  rw [add_edge_cap, add_edge_snd_edges, word_index_eq, bit_offset_eq]
  exact set_bit_update_testBit g.edges (g.cap * fm + tn) (g.cap * u + v)

/-- `add_edge` sets exactly the transpose bit at address `cap*tn + fm`. -/
theorem edge_bit_t_add (g : BitGraph) (fm tn u v : Nat) :
    edge_bit_t (add_edge g fm tn).2 u v =
      (edge_bit_t g u v || decide (g.cap * u + v = g.cap * tn + fm)) := by
  unfold edge_bit_t
  rw [add_edge_cap, add_edge_snd_transpose, word_index_eq, bit_offset_eq]
  exact set_bit_update_testBit g.edges_transpose (g.cap * tn + fm) (g.cap * u + v)

/-- `remove_edge` clears exactly the forward bit at address `cap*fm + tn`. -/
theorem edge_bit_remove (g : BitGraph) (fm tn u v : Nat) :
    edge_bit (remove_edge g fm tn).2 u v =
      (edge_bit g u v && decide (g.cap * u + v ≠ g.cap * fm + tn)) := by
  unfold edge_bit
  rw [remove_edge_cap, remove_edge_snd_edges, word_index_eq, bit_offset_eq]
  exact unset_bit_update_testBit g.edges (g.cap * fm + tn) (g.cap * u + v)

/-- `remove_edge` clears exactly the transpose bit at address `cap*tn + fm`. -/
theorem edge_bit_t_remove (g : BitGraph) (fm tn u v : Nat) :
    edge_bit_t (remove_edge g fm tn).2 u v =
      (edge_bit_t g u v && decide (g.cap * u + v ≠ g.cap * tn + fm)) := by
  unfold edge_bit_t
  rw [remove_edge_cap, remove_edge_snd_transpose, word_index_eq, bit_offset_eq]
  exact unset_bit_update_testBit g.edges_transpose (g.cap * tn + fm) (g.cap * u + v)

/-- Every stored word only holds bits `0..64` (true in all reachable states). -/
def words_lt (g : BitGraph) : Prop :=
  (∀ j, g.edges j < 2 ^ 64) ∧ (∀ j, g.edges_transpose j < 2 ^ 64)

/-- The forward/transpose mirror invariant at the raw-bit level, for every
ordered pair inside the capacity square. -/
def transpose_inv (g : BitGraph) : Prop :=
  ∀ u v, u < g.cap → v < g.cap → edge_bit g u v = edge_bit_t g v u

theorem addr_inj {cap u v fm tn : Nat} (hv : v < cap) (htn : tn < cap) :
    cap * u + v = cap * fm + tn ↔ u = fm ∧ v = tn := by
  constructor
  · intro h
    have hcap : 0 < cap := by omega
    have h1 : (cap * u + v) % cap = (cap * fm + tn) % cap := by rw [h]
    rw [Nat.mul_add_mod, Nat.mul_add_mod, Nat.mod_eq_of_lt hv, Nat.mod_eq_of_lt htn] at h1
    subst h1
    have h2 : cap * u = cap * fm := by omega
    exact ⟨Nat.eq_of_mul_eq_mul_left hcap h2, rfl⟩
  · rintro ⟨rfl, rfl⟩
    rfl

theorem words_lt_update {arr : Nat → Nat} (h : ∀ j, arr j < 2 ^ 64) (i v : Nat)
    (hv : v < 2 ^ 64) : ∀ j, Function.update arr i v j < 2 ^ 64 := by
  intro j
  by_cases hj : j = i
  · rw [hj, Function.update_same]
    exact hv
  · rw [Function.update_noteq hj]
    exact h j

theorem words_lt_add (g : BitGraph) (fm tn : Nat) (h : words_lt g) :
    words_lt (add_edge g fm tn).2 := by
  obtain ⟨h1, h2⟩ := h
  constructor
  · intro j
    rw [add_edge_snd_edges]
    exact words_lt_update h1 _ _ (set_bit_lt _ _ (h1 _) (bit_offset_lt _ _ _)) j
  · intro j
    rw [add_edge_snd_transpose]
    exact words_lt_update h2 _ _ (set_bit_lt _ _ (h2 _) (bit_offset_lt _ _ _)) j

theorem words_lt_remove (g : BitGraph) (fm tn : Nat) (h : words_lt g) :
    words_lt (remove_edge g fm tn).2 := by
  obtain ⟨h1, h2⟩ := h
  constructor
  · intro j
    rw [remove_edge_snd_edges]
    exact words_lt_update h1 _ _ (lt_of_le_of_lt (unset_bit_le _ _) (h1 _)) j
  · intro j
    rw [remove_edge_snd_transpose]
    exact words_lt_update h2 _ _ (lt_of_le_of_lt (unset_bit_le _ _) (h2 _)) j

theorem transpose_inv_add (g : BitGraph) {fm tn : Nat} (hfm : fm < g.cap) (htn : tn < g.cap)
    (h : transpose_inv g) : transpose_inv (add_edge g fm tn).2 := by
  intro u v hu hv
  rw [add_edge_cap] at hu hv
  rw [edge_bit_add, edge_bit_t_add, h u v hu hv]
  have e1 := @addr_inj g.cap u v fm tn hv htn
  have e2 := @addr_inj g.cap v u tn fm hu hfm
  congr 1
  rw [decide_eq_decide, e1, e2]
  tauto

theorem transpose_inv_remove (g : BitGraph) {fm tn : Nat} (hfm : fm < g.cap) (htn : tn < g.cap)
    (h : transpose_inv g) : transpose_inv (remove_edge g fm tn).2 := by
  intro u v hu hv
  rw [remove_edge_cap] at hu hv
  rw [edge_bit_remove, edge_bit_t_remove, h u v hu hv]
  have e1 := @addr_inj g.cap u v fm tn hv htn
  have e2 := @addr_inj g.cap v u tn fm hu hfm
  congr 1
  rw [decide_eq_decide]
  rw [not_iff_not]
  rw [e1, e2]
  tauto

theorem push_node_snd_edges (g : BitGraph) (value : Nat) :
    (push_node g value).2.edges = g.edges := rfl

theorem push_node_snd_transpose (g : BitGraph) (value : Nat) :
    (push_node g value).2.edges_transpose = g.edges_transpose := rfl

theorem push_node_cap (g : BitGraph) (value : Nat) : (push_node g value).2.cap = g.cap := rfl

/-- Reachable `BitGraph` states: constructed by `with_capacity` and mutated by
`push_node` (within capacity), `add_edge`, `remove_edge` and `set_edge` on
in-range node indices. -/
inductive Reach : BitGraph → Prop where
  | init (size : Nat) : Reach (with_capacity size)
  | push {g : BitGraph} (value : Nat) : Reach g → g.count < g.cap →
      Reach (push_node g value).2
  | add {g : BitGraph} {fm tn : Nat} : Reach g → fm < g.count → tn < g.count →
      Reach (add_edge g fm tn).2
  | remove {g : BitGraph} {fm tn : Nat} : Reach g → fm < g.count → tn < g.count →
      Reach (remove_edge g fm tn).2
  | set {g : BitGraph} {fm tn : Nat} (w : Bool) : Reach g → fm < g.count → tn < g.count →
      Reach (set_edge g fm tn w).2

theorem reach_count_le {g : BitGraph} (h : Reach g) : g.count ≤ g.cap := by
  induction h with
  | init size => exact Nat.zero_le size
  | push value _ hlt ih => simpa [push_node] using hlt
  | add _ _ _ ih => exact ih
  | remove _ _ _ ih => exact ih
  | set w _ _ _ ih => cases w <;> exact ih

theorem reach_words_lt {g : BitGraph} (h : Reach g) : words_lt g := by
  induction h with
  | init size => exact ⟨fun j => by simp [with_capacity], fun j => by simp [with_capacity]⟩
  | push value _ _ ih => exact ih
  | add _ _ _ ih => exact words_lt_add _ _ _ ih
  | remove _ _ _ ih => exact words_lt_remove _ _ _ ih
  | set w _ _ _ ih => cases w
                      <;> first
                        | exact words_lt_remove _ _ _ ih
                        | exact words_lt_add _ _ _ ih

theorem reach_transpose_inv {g : BitGraph} (h : Reach g) : transpose_inv g := by
  induction h with
  | init size =>
    intro u v _ _
    simp [edge_bit, edge_bit_t, with_capacity, Nat.zero_testBit]
  | push value _ _ ih =>
    intro u v hu hv
    rw [push_node_cap] at hu hv
    show edge_bit _ u v = edge_bit_t _ v u
    unfold edge_bit edge_bit_t
    rw [push_node_snd_edges, push_node_snd_transpose, push_node_cap]
    exact ih u v hu hv
  | add hr hfm htn ih =>
    exact transpose_inv_add _ (lt_of_lt_of_le hfm (reach_count_le hr))
      (lt_of_lt_of_le htn (reach_count_le hr)) ih
  | remove hr hfm htn ih =>
    exact transpose_inv_remove _ (lt_of_lt_of_le hfm (reach_count_le hr))
      (lt_of_lt_of_le htn (reach_count_le hr)) ih
  | set w hr hfm htn ih =>
    cases w
    · exact transpose_inv_remove _ (lt_of_lt_of_le hfm (reach_count_le hr))
        (lt_of_lt_of_le htn (reach_count_le hr)) ih
    · exact transpose_inv_add _ (lt_of_lt_of_le hfm (reach_count_le hr))
        (lt_of_lt_of_le htn (reach_count_le hr)) ih

/-- Membership in `outgoing_edges_of` is exactly the forward bit. -/
theorem mem_outgoing (g : BitGraph) (hW : words_lt g) (u x : Nat) :
    x ∈ outgoing_edges_of g u ↔ x < g.cap ∧ edge_bit g u x = true :=
  row_scan_mem g.edges hW.1 g.cap u x

/-- Membership in `incoming_edges_of` is exactly the transpose bit. -/
theorem mem_incoming (g : BitGraph) (hW : words_lt g) (v x : Nat) :
    x ∈ incoming_edges_of g v ↔ x < g.cap ∧ edge_bit_t g v x = true :=
  row_scan_mem g.edges_transpose hW.2 g.cap v x

end BitGraph

/-! ## The dense matrix backend (`AdjGraph`, src/baseline.rs) -/

/-- `AdjGraph` (src/baseline.rs lines 5-11): one `u8` cell per ordered pair at
address `cap*from + to`, plus the mirrored transpose array.  `cap` models
`nodes.capacity()` (fixed at construction, see `BitGraph`). -/
structure AdjGraph where
  cap : Nat
  count : Nat
  nodes : List Nat
  edges : Nat → Nat
  edges_transpose : Nat → Nat

namespace AdjGraph

/-- `AdjGraph::with_capacity(size)`: zeroed cell arrays. -/
def with_capacity (size : Nat) : AdjGraph :=
  { cap := size, count := 0, nodes := [], edges := fun _ => 0, edges_transpose := fun _ => 0 }

/-- `AdjGraph::set_edge_of_tranpose` (src/baseline.rs lines 42-48). -/
def set_edge_of_tranpose (g : AdjGraph) (fm tn val : Nat) : AdjGraph :=
  { g with edges_transpose := (Function.update g.edges_transpose (g.cap * fm + tn) val) }

/-- `AdjGraph::set_edge_of_both` (src/baseline.rs lines 28-40): writes `val` at
cell `cap*from + to` of both arrays (transposed for the second) and returns the
previous forward cell value. -/
def set_edge_of_both (g : AdjGraph) (fm tn val : Nat) : Nat × AdjGraph :=
  let prev := g.edges (g.cap * fm + tn)
  let g' := { g with edges := (Function.update g.edges (g.cap * fm + tn) val) }
  (prev, set_edge_of_tranpose g' tn fm val)

/-- `AdjGraph::add_edge`: writes 1, returns whether the previous value was `> 0`. -/
def add_edge (g : AdjGraph) (fm tn : Nat) : Bool × AdjGraph :=
  ((set_edge_of_both g fm tn 1).1 > 0, (set_edge_of_both g fm tn 1).2)

/-- `AdjGraph::remove_edge`: writes 0, same return convention. -/
def remove_edge (g : AdjGraph) (fm tn : Nat) : Bool × AdjGraph :=
  ((set_edge_of_both g fm tn 0).1 > 0, (set_edge_of_both g fm tn 0).2)

/-- `AdjGraph::set_edge` (src/baseline.rs lines 121-123): writes the weight byte. -/
def set_edge (g : AdjGraph) (fm tn weight : Nat) : Bool × AdjGraph :=
  ((set_edge_of_both g fm tn weight).1 > 0, (set_edge_of_both g fm tn weight).2)

/-- `AdjGraph::has_edge` (src/baseline.rs lines 96-102). -/
def has_edge (g : AdjGraph) (fm tn : Nat) : Bool :=
  g.edges (g.cap * fm + tn) > 0

/-- `AdjGraph::outgoing_edges_of` (src/baseline.rs lines 64-75): scans cells
`cap*node + i` for `i in 0..count`. -/
def outgoing_edges_of (g : AdjGraph) (node_index : Nat) : List Nat :=
  (List.range g.count).filter (fun i => g.edges (g.cap * node_index + i) > 0)

/-- `AdjGraph::incoming_edges_of` (src/baseline.rs lines 77-88). -/
def incoming_edges_of (g : AdjGraph) (node_index : Nat) : List Nat :=
  (List.range g.count).filter (fun i => g.edges_transpose (g.cap * node_index + i) > 0)

/-- `AdjGraph::push_node`. -/
def push_node (g : AdjGraph) (value : Nat) : Nat × AdjGraph :=
  (g.nodes.length, { g with count := g.count + 1, nodes := g.nodes ++ [value] })

theorem add_edge_fst_adj (g : AdjGraph) (fm tn : Nat) :
    (add_edge g fm tn).1 = has_edge g fm tn := rfl

theorem remove_edge_fst_adj (g : AdjGraph) (fm tn : Nat) :
    (remove_edge g fm tn).1 = has_edge g fm tn := rfl

theorem set_edge_fst_adj (g : AdjGraph) (fm tn weight : Nat) :
    (set_edge g fm tn weight).1 = has_edge g fm tn := rfl

theorem set_edge_of_both_cap (g : AdjGraph) (fm tn val : Nat) :
    (set_edge_of_both g fm tn val).2.cap = g.cap := rfl

theorem set_edge_of_both_count (g : AdjGraph) (fm tn val : Nat) :
    (set_edge_of_both g fm tn val).2.count = g.count := rfl

theorem set_edge_of_both_edges (g : AdjGraph) (fm tn val : Nat) :
    (set_edge_of_both g fm tn val).2.edges =
      Function.update g.edges (g.cap * fm + tn) val := rfl

theorem set_edge_of_both_transpose (g : AdjGraph) (fm tn val : Nat) :
    (set_edge_of_both g fm tn val).2.edges_transpose =
      Function.update g.edges_transpose (g.cap * tn + fm) val := rfl

/-- Cell-level transpose invariant of the dense backend: the two arrays hold
identical values at mirrored addresses inside the capacity square. -/
def transpose_inv (g : AdjGraph) : Prop :=
  ∀ u v, u < g.cap → v < g.cap →
    g.edges (g.cap * u + v) = g.edges_transpose (g.cap * v + u)

theorem transpose_inv_set (g : AdjGraph) {fm tn : Nat} (hfm : fm < g.cap) (htn : tn < g.cap)
    (val : Nat) (h : transpose_inv g) : transpose_inv (set_edge_of_both g fm tn val).2 := by
  intro u v hu hv
  rw [set_edge_of_both_cap] at hu hv
  rw [set_edge_of_both_cap, set_edge_of_both_edges, set_edge_of_both_transpose]
  by_cases he : g.cap * u + v = g.cap * fm + tn
  · have hpair := (@BitGraph.addr_inj g.cap u v fm tn hv htn).mp he
    have he2 : g.cap * v + u = g.cap * tn + fm := by
      rw [hpair.1, hpair.2]
    rw [he, he2, Function.update_same, Function.update_same]
  · have he2 : g.cap * v + u ≠ g.cap * tn + fm := by
      intro hx
      have hpair := (@BitGraph.addr_inj g.cap v u tn fm hu hfm).mp hx
      exact he ((@BitGraph.addr_inj g.cap u v fm tn hv htn).mpr ⟨hpair.2, hpair.1⟩)
    rw [Function.update_noteq he, Function.update_noteq he2]
    exact h u v hu hv

/-- Reachable `AdjGraph` states (same operation set as the bit backend). -/
inductive Reach : AdjGraph → Prop where
  | init (size : Nat) : Reach (with_capacity size)
  | push {g : AdjGraph} (value : Nat) : Reach g → g.count < g.cap →
      Reach (push_node g value).2
  | add {g : AdjGraph} {fm tn : Nat} : Reach g → fm < g.count → tn < g.count →
      Reach (add_edge g fm tn).2
  | remove {g : AdjGraph} {fm tn : Nat} : Reach g → fm < g.count → tn < g.count →
      Reach (remove_edge g fm tn).2
  | set {g : AdjGraph} {fm tn : Nat} (weight : Nat) : Reach g → fm < g.count → tn < g.count →
      Reach (set_edge g fm tn weight).2

theorem reach_count_le_adj {g : AdjGraph} (h : Reach g) : g.count ≤ g.cap := by
  induction h with
  | init size => exact Nat.zero_le size
  | push value _ hlt ih => simpa [push_node] using hlt
  | add _ _ _ ih => exact ih
  | remove _ _ _ ih => exact ih
  | set weight _ _ _ ih => exact ih

theorem reach_transpose_inv_adj {g : AdjGraph} (h : Reach g) : transpose_inv g := by
  induction h with
  | init size => intro u v _ _; rfl
  | push value _ _ ih =>
    intro u v hu hv
    exact ih u v hu hv
  | add hr hfm htn ih =>
    exact transpose_inv_set _ (lt_of_lt_of_le hfm (reach_count_le_adj hr))
      (lt_of_lt_of_le htn (reach_count_le_adj hr)) 1 ih
  | remove hr hfm htn ih =>
    exact transpose_inv_set _ (lt_of_lt_of_le hfm (reach_count_le_adj hr))
      (lt_of_lt_of_le htn (reach_count_le_adj hr)) 0 ih
  | set weight hr hfm htn ih =>
    exact transpose_inv_set _ (lt_of_lt_of_le hfm (reach_count_le_adj hr))
      (lt_of_lt_of_le htn (reach_count_le_adj hr)) weight ih

theorem mem_outgoing_adj (g : AdjGraph) (u x : Nat) :
    x ∈ outgoing_edges_of g u ↔ x < g.count ∧ g.edges (g.cap * u + x) > 0 := by
  simp [outgoing_edges_of, List.mem_filter, List.mem_range]

theorem mem_incoming_adj (g : AdjGraph) (v x : Nat) :
    x ∈ incoming_edges_of g v ↔ x < g.count ∧ g.edges_transpose (g.cap * v + x) > 0 := by
  simp [incoming_edges_of, List.mem_filter, List.mem_range]

end AdjGraph

/-- A filtered `range` is strictly ascending. -/
theorem pairwise_lt_filter_range (n : Nat) (p : Nat → Bool) :
    ((List.range n).filter p).Pairwise (· < ·) :=
  List.Pairwise.sublist (List.filter_sublist _) (List.pairwise_lt_range n)

/-! ## The open-addressing hash backend (src/hash/mod.rs) -/

/-- `EdgeMeta` (crate root): source index, destination index, weight. -/
structure EdgeMeta where
  source : Nat
  destination : Nat
  weight : Nat
deriving DecidableEq

/-- `EdgeMeta::key_pair()`: the `(source, destination)` key. -/
def EdgeMeta.key_pair (e : EdgeMeta) : Nat × Nat := (e.source, e.destination)

/-- `Entry` (src/hash/mod.rs lines 15-18): a stored entry, live or tombstoned. -/
structure Entry where
  edge_meta : EdgeMeta
  is_deleted : Bool
deriving DecidableEq

/-- `hash_usize` (src/hash/mod.rs lines 25-35): Thomas Wang's 64-bit
shift/xor/multiply avalanche mix on `Wrapping<usize>`; every add/shift-left
wraps modulo `2^64` (consecutive wrapping additions are combined under a single
outer `% 2^64`, which is equal). -/
def hash_usize (input : Nat) : Nat :=
  let k0 := input % 2 ^ 64
  let k1 := ((2 ^ 64 - 1 - k0) + (k0 <<< 21)) % 2 ^ 64
  let k2 := k1 ^^^ (k1 >>> 24)
  let k3 := ((k2 + (k2 <<< 3)) + (k2 <<< 8)) % 2 ^ 64
  let k4 := k3 ^^^ (k3 >>> 14)
  let k5 := ((k4 + (k4 <<< 2)) + (k4 <<< 4)) % 2 ^ 64
  let k6 := k5 ^^^ (k5 >>> 28)
  (k6 + (k6 <<< 31)) % 2 ^ 64

/-- `PRIME_OF_MATHS` (src/hash/mod.rs line 7). -/
def PRIME_OF_MATHS : Nat := 97

/-- `GROW_FACTOR` (src/hash/mod.rs line 6). -/
def GROW_FACTOR : Nat := 2

/-- The resize trigger threshold `(capacity as f32 * MAX_LOAD) as usize` with
`MAX_LOAD = 0.75`: equals `3*capacity/4` exactly for every capacity below
`2^22`, where the `f32` product is exact. -/
def max_load_count (capacity : Nat) : Nat := 3 * capacity / 4

/-- `PairHashTable` (src/hash/mod.rs lines 9-13).  The slot vector is created
by `repeat_with(|| None).take(capacity).collect()`, so its length is the
capacity and it is never grown in place. -/
structure PairHashTable where
  count : Nat
  table : List (Option Entry)
deriving DecidableEq

namespace PairHashTable

/-- `table.capacity()`: the fixed slot count. -/
def cap (t : PairHashTable) : Nat := t.table.length

/-- `PairHashTable::with_capacity`. -/
def with_capacity (capacity : Nat) : PairHashTable :=
  { count := 0, table := List.replicate capacity none }

/-- `self.table[index]` (all reads use `index < capacity`, the reduced probe
index). -/
def slot (t : PairHashTable) (i : Nat) : Option Entry := t.table.getD i none

/-- `index_calc` (src/hash/mod.rs lines 177-181):
`(PRIME_OF_MATHS * hash(key.0) + PRIME_OF_MATHS + hash(key.1)) % capacity`,
the inner arithmetic wrapping on 64 bits. -/
def index_calc (capacity : Nat) (key : Nat × Nat) : Nat :=
  ((PRIME_OF_MATHS * hash_usize key.1 + PRIME_OF_MATHS + hash_usize key.2) % 2 ^ 64) % capacity

/-- The probe loop of `index_of` (src/hash/mod.rs lines 49-64).  Linear probing
visits `capacity` pairwise-distinct slots and then repeats the same sequence,
so a loop that has not returned within `capacity` steps never returns: fuel
`capacity` is exact and `none` models divergence. -/
def index_of_aux (t : PairHashTable) (key : Nat × Nat) : Nat → Nat → Option Nat
  | 0, _ => none
  | fuel + 1, index =>
    match t.slot index with
    | some entry =>
      if entry.is_deleted = false ∧ entry.edge_meta.key_pair = key then some index
      else index_of_aux t key fuel ((index + 1) % t.cap)
    | none => some index

/-- `PairHashTable::index_of`. -/
def index_of (t : PairHashTable) (key : Nat × Nat) : Option Nat :=
  index_of_aux t key t.cap (index_calc t.cap key)

/-- The probe loop of `index_of_insertion` (src/hash/mod.rs lines 66-93),
additionally remembering the first tombstone passed. -/
def index_of_insertion_aux (t : PairHashTable) (key : Nat × Nat) :
    Nat → Nat → Option Nat → Option Nat
  | 0, _, _ => none
  | fuel + 1, index, tombstone =>
    match t.slot index with
    | some entry =>
      if entry.is_deleted = false ∧ entry.edge_meta.key_pair = key then some index
      else
        index_of_insertion_aux t key fuel ((index + 1) % t.cap)
          (if entry.is_deleted = true ∧ tombstone = none then some index else tombstone)
    | none =>
      match tombstone with
      | some ts => some ts
      | none => some index

/-- `PairHashTable::index_of_insertion`. -/
def index_of_insertion (t : PairHashTable) (key : Nat × Nat) : Option Nat :=
  index_of_insertion_aux t key t.cap (index_calc t.cap key) none

/-- The unconditional tail of `insert` (src/hash/mod.rs lines 101-123): find the
insertion site, record whether it was occupied, bump `count` when it was not,
and write the live entry. -/
def write_entry (t : PairHashTable) (key : Nat × Nat) (weight : Nat) (index : Nat) :
    PairHashTable :=
  { count := if (t.slot index).isSome then t.count else t.count + 1,
    table := t.table.set index (some ⟨⟨key.1, key.2, weight⟩, false⟩) }

/-- `insert` as invoked by `resize` on the fresh table (src/hash/mod.rs line
167): the full `insert` body, except that its resize branch — provably
unreachable there, because at most `cap` live entries are re-inserted into a
table of capacity `2*cap`, keeping `count + 1 ≤ cap ≤ max_load_count (2*cap)`
— is modeled as `none` (divergence) rather than recursing. -/
def insert_inner (t : PairHashTable) (key : Nat × Nat) (weight : Nat) :
    Option (Bool × PairHashTable) :=
  if t.count + 1 > max_load_count t.cap then none
  else
    match index_of_insertion t key with
    | none => none
    | some index => some ((t.slot index).isSome, write_entry t key weight index)

/-- The walk of `resize` (src/hash/mod.rs lines 161-174) over the old table:
for `i in 0..capacity`, re-insert each live entry into the fresh table. -/
def resize_go (t : PairHashTable) : Nat → PairHashTable → Option PairHashTable
  | 0, acc => some acc
  | left + 1, acc =>
    let i := t.cap - (left + 1)
    match t.slot i with
    | some entry =>
      if entry.is_deleted = false then
        match insert_inner acc entry.edge_meta.key_pair entry.edge_meta.weight with
        | none => none
        | some r => resize_go t left r.2
      else resize_go t left acc
    | none => resize_go t left acc

/-- `PairHashTable::resize`: rebuild into a fresh table of the given capacity,
dropping tombstones; finally `self.count`/`self.table` are replaced by the new
table's, i.e. the result is the new table. -/
def resize (t : PairHashTable) (capacity : Nat) : Option PairHashTable :=
  resize_go t t.cap (with_capacity capacity)

/-- `PairHashTable::insert` (src/hash/mod.rs lines 95-124): resize first when
the projected load factor crosses MAX_LOAD, then write at the insertion site.
Returns the `had_edge` flag (whether the site was occupied) and the new table. -/
def insert (t : PairHashTable) (key : Nat × Nat) (weight : Nat) :
    Option (Bool × PairHashTable) :=
  if t.count + 1 > max_load_count t.cap then
    match resize t (t.cap * GROW_FACTOR) with
    | none => none
    | some t' =>
      match index_of_insertion t' key with
      | none => none
      | some index => some ((t'.slot index).isSome, write_entry t' key weight index)
  else
    match index_of_insertion t key with
    | none => none
    | some index => some ((t.slot index).isSome, write_entry t key weight index)

/-- `PairHashTable::delete` (src/hash/mod.rs lines 126-151): mark the live
matching entry tombstoned in place; `count` is not decremented. -/
def delete (t : PairHashTable) (key : Nat × Nat) : Option (Bool × PairHashTable) :=
  if t.count = 0 then some (false, t)
  else
    match index_of_insertion t key with
    | none => none
    | some index =>
      match t.slot index with
      | some entry =>
        if entry.is_deleted then some (false, t)
        else some (true,
          { t with table := t.table.set index (some { entry with is_deleted := true }) })
      | none => some (false, t)

/-- `PairHashTable::get` (src/hash/mod.rs lines 153-159). -/
def get (t : PairHashTable) (key : Nat × Nat) : Option (Option EdgeMeta) :=
  match index_of t key with
  | none => none
  | some index =>
    match t.slot index with
    | some entry => some (some entry.edge_meta)
    | none => some none

/-! ### Probe-sequence facts -/

/-- The slot visited at probe distance `d` for `key`. -/
def probe_pos (c : Nat) (key : Nat × Nat) (d : Nat) : Nat :=
  (index_calc c key + d) % c

theorem index_calc_lt (c : Nat) (hc : 0 < c) (key : Nat × Nat) : index_calc c key < c :=
  Nat.mod_lt _ hc

theorem probe_pos_lt {c : Nat} (hc : 0 < c) (key : Nat × Nat) (d : Nat) :
    probe_pos c key d < c :=
  Nat.mod_lt _ hc

theorem probe_pos_zero {c : Nat} (hc : 0 < c) (key : Nat × Nat) :
    probe_pos c key 0 = index_calc c key := by
  unfold probe_pos
  rw [Nat.add_zero, Nat.mod_eq_of_lt (index_calc_lt c hc key)]

theorem probe_pos_succ {c : Nat} (key : Nat × Nat) (d : Nat) :
    (probe_pos c key d + 1) % c = probe_pos c key (d + 1) := by
  unfold probe_pos
  rw [Nat.mod_add_mod, Nat.add_assoc]

theorem probe_pos_inj {c : Nat} (key : Nat × Nat) {d d' : Nat} (hd : d < c) (hd' : d' < c)
    (h : probe_pos c key d = probe_pos c key d') : d = d' := by
  have hmod : d ≡ d' [MOD c] := Nat.ModEq.add_left_cancel rfl h
  have hmm : d % c = d' % c := hmod
  rwa [Nat.mod_eq_of_lt hd, Nat.mod_eq_of_lt hd'] at hmm

theorem probe_cover {c : Nat} (hc : 0 < c) (key : Nat × Nat) (i : Nat) (hi : i < c) :
    ∃ d, d < c ∧ probe_pos c key d = i := by
  have hp : index_calc c key < c := index_calc_lt c hc key
  refine ⟨(c + i - index_calc c key) % c, Nat.mod_lt _ hc, ?_⟩
  unfold probe_pos
  rw [Nat.add_mod_mod]
  have he : index_calc c key + (c + i - index_calc c key) = c + i := by omega
  rw [he, Nat.add_mod_left, Nat.mod_eq_of_lt hi]

/-! ### Probe-loop walk specifications -/

theorem index_of_aux_spec (t : PairHashTable) (key : Nat × Nat) (e : Nat) :
    ∀ fuel d, d ≤ e → e - d < fuel →
      (∀ d', d ≤ d' → d' < e →
        ∃ en, t.slot (probe_pos t.cap key d') = some en ∧
          ¬(en.is_deleted = false ∧ en.edge_meta.key_pair = key)) →
      ((∃ en, t.slot (probe_pos t.cap key e) = some en ∧ en.is_deleted = false ∧
          en.edge_meta.key_pair = key) ∨ t.slot (probe_pos t.cap key e) = none) →
      index_of_aux t key fuel (probe_pos t.cap key d) = some (probe_pos t.cap key e) := by
  intro fuel
  induction fuel with
  | zero => intro d h1 h2 _ _; omega
  | succ fuel ih =>
    intro d h1 h2 hmid hfin
    rcases Nat.eq_or_lt_of_le h1 with rfl | hlt
    · rcases hfin with ⟨en, hsl, hdel, hkey⟩ | hsl
      · simp only [index_of_aux, hsl]
        simp [hdel, hkey]
      · simp only [index_of_aux, hsl]
    · obtain ⟨en, hsl, hnm⟩ := hmid d (le_refl d) hlt
      simp only [index_of_aux, hsl]
      rw [if_neg hnm, probe_pos_succ]
      exact ih (d + 1) (by omega) (by omega) (fun d' hd1 hd2 => hmid d' (by omega) hd2) hfin

theorem index_of_insertion_aux_spec_found (t : PairHashTable) (key : Nat × Nat) (e : Nat) :
    ∀ fuel d tomb, d ≤ e → e - d < fuel →
      (∀ d', d ≤ d' → d' < e →
        ∃ en, t.slot (probe_pos t.cap key d') = some en ∧
          ¬(en.is_deleted = false ∧ en.edge_meta.key_pair = key)) →
      (∃ en, t.slot (probe_pos t.cap key e) = some en ∧ en.is_deleted = false ∧
        en.edge_meta.key_pair = key) →
      index_of_insertion_aux t key fuel (probe_pos t.cap key d) tomb =
        some (probe_pos t.cap key e) := by
  intro fuel
  induction fuel with
  | zero => intro d tomb h1 h2 _ _; omega
  | succ fuel ih =>
    intro d tomb h1 h2 hmid hfin
    rcases Nat.eq_or_lt_of_le h1 with rfl | hlt
    · obtain ⟨en, hsl, hdel, hkey⟩ := hfin
      simp only [index_of_insertion_aux, hsl]
      simp [hdel, hkey]
    · obtain ⟨en, hsl, hnm⟩ := hmid d (le_refl d) hlt
      simp only [index_of_insertion_aux, hsl]
      rw [if_neg hnm, probe_pos_succ]
      exact ih (d + 1) _ (by omega) (by omega) (fun d' hd1 hd2 => hmid d' (by omega) hd2) hfin

theorem index_of_insertion_aux_spec_empty (t : PairHashTable) (key : Nat × Nat) (e : Nat) :
    ∀ fuel d tomb, d ≤ e → e - d < fuel →
      (∀ d', d ≤ d' → d' < e →
        ∃ en, t.slot (probe_pos t.cap key d') = some en ∧
          ¬(en.is_deleted = false ∧ en.edge_meta.key_pair = key)) →
      t.slot (probe_pos t.cap key e) = none →
      (∀ d', d' < d → (t.slot (probe_pos t.cap key d')).isSome) →
      (tomb = none ∨ ∃ dt, dt < d ∧ tomb = some (probe_pos t.cap key dt) ∧
        ∃ en, t.slot (probe_pos t.cap key dt) = some en ∧ en.is_deleted = true) →
      ∃ dr, dr ≤ e ∧
        index_of_insertion_aux t key fuel (probe_pos t.cap key d) tomb =
          some (probe_pos t.cap key dr) ∧
        (t.slot (probe_pos t.cap key dr) = none ∨
          ∃ en, t.slot (probe_pos t.cap key dr) = some en ∧ en.is_deleted = true) ∧
        (∀ d', d' < dr → (t.slot (probe_pos t.cap key d')).isSome) := by
  intro fuel
  induction fuel with
  | zero => intro d tomb h1 h2 _ _ _ _; omega
  | succ fuel ih =>
    intro d tomb h1 h2 hmid hfin hpre htomb
    rcases Nat.eq_or_lt_of_le h1 with rfl | hlt
    · simp only [index_of_insertion_aux, hfin]
      rcases htomb with rfl | ⟨dt, hdt, rfl, hents⟩
      · exact ⟨d, le_refl d, rfl, Or.inl hfin, hpre⟩
      · exact ⟨dt, by omega, rfl, Or.inr hents, fun d' hd' => hpre d' (by omega)⟩
    · obtain ⟨en, hsl, hnm⟩ := hmid d (le_refl d) hlt
      simp only [index_of_insertion_aux, hsl]
      rw [if_neg hnm, probe_pos_succ]
      refine ih (d + 1) _ (by omega) (by omega)
        (fun d' hd1 hd2 => hmid d' (by omega) hd2) hfin
        (fun d' hd' => ?_) ?_
      · rcases Nat.lt_or_ge d' d with hc | hc
        · exact hpre d' hc
        · have : d' = d := by omega
          rw [this, hsl]
          rfl
      · split
        · rename_i hcond
          exact Or.inr ⟨d, by omega, rfl, en, hsl, hcond.1⟩
        · rcases htomb with rfl | ⟨dt, hdt, rfl, hents⟩
          · exact Or.inl rfl
          · exact Or.inr ⟨dt, by omega, rfl, hents⟩

/-! ### Table invariant and lookup correctness -/

/-- Number of occupied (`Some`) slots, live or tombstoned. -/
def countSome (l : List (Option Entry)) : Nat := (l.filter Option.isSome).length

/-- There is a live (non-tombstoned) entry with this key. -/
def has_live (t : PairHashTable) (key : Nat × Nat) : Prop :=
  ∃ i en, i < t.cap ∧ t.slot i = some en ∧ en.is_deleted = false ∧
    en.edge_meta.key_pair = key

/-- There is a live entry with this key carrying exactly the metadata `m`. -/
def live_with (t : PairHashTable) (key : Nat × Nat) (m : EdgeMeta) : Prop :=
  ∃ i en, i < t.cap ∧ t.slot i = some en ∧ en.is_deleted = false ∧
    en.edge_meta.key_pair = key ∧ en.edge_meta = m

/-- Well-formedness of a `PairHashTable`, maintained by every reachable state:
`count` counts the occupied slots and stays below capacity (so probing always
finds an empty slot), every live entry is reachable from its key's probe start
through occupied slots, and live keys are unique. -/
structure Inv (t : PairHashTable) : Prop where
  cap_pos : 0 < t.cap
  count_eq : t.count = countSome t.table
  count_lt : t.count < t.cap
  reach : ∀ i en, i < t.cap → t.slot i = some en → en.is_deleted = false →
    ∃ d, d < t.cap ∧ probe_pos t.cap en.edge_meta.key_pair d = i ∧
      ∀ d', d' < d → (t.slot (probe_pos t.cap en.edge_meta.key_pair d')).isSome
  distinct : ∀ i j en en', i < t.cap → j < t.cap → t.slot i = some en →
    t.slot j = some en' → en.is_deleted = false → en'.is_deleted = false →
    en.edge_meta.key_pair = en'.edge_meta.key_pair → i = j

theorem slot_eq_getElem (t : PairHashTable) (i : Nat) (hi : i < t.cap) :
    t.slot i = t.table.get ⟨i, hi⟩ :=
  List.getD_eq_getElem t.table none hi

theorem exists_none_slot {t : PairHashTable} (h : Inv t) :
    ∃ i, i < t.cap ∧ t.slot i = none := by
  by_contra hno
  push_neg at hno
  have hall : ∀ s ∈ t.table, s.isSome = true := by
    intro s hs
    obtain ⟨⟨i, hi⟩, hgs⟩ := List.mem_iff_get.mp hs
    have hne := hno i hi
    rw [slot_eq_getElem t i hi, hgs] at hne
    cases s with
    | none => exact absurd rfl hne
    | some v => rfl
  have hlen : countSome t.table = t.cap := by
    unfold countSome
    exact List.filter_length_eq_length.mpr hall
  have := h.count_eq
  have := h.count_lt
  omega

/-- Under the invariant, `index_of` finds the slot of any live entry. -/
theorem index_of_found {t : PairHashTable} (h : Inv t) {i : Nat} {en : Entry}
    (hi : i < t.cap) (hsl : t.slot i = some en) (hdel : en.is_deleted = false) :
    index_of t en.edge_meta.key_pair = some i := by
  obtain ⟨d, hd, hpos, hpre⟩ := h.reach i en hi hsl hdel
  have hmid : ∀ d', 0 ≤ d' → d' < d →
      ∃ en', t.slot (probe_pos t.cap en.edge_meta.key_pair d') = some en' ∧
        ¬(en'.is_deleted = false ∧ en'.edge_meta.key_pair = en.edge_meta.key_pair) := by
    intro d' _ hd'
    have hs := hpre d' hd'
    cases hval : t.slot (probe_pos t.cap en.edge_meta.key_pair d') with
    | none => rw [hval] at hs; exact absurd hs (by simp)
    | some en' =>
      refine ⟨en', rfl, ?_⟩
      rintro ⟨hdel', hkey'⟩
      have hlt' : probe_pos t.cap en.edge_meta.key_pair d' < t.cap :=
        probe_pos_lt h.cap_pos _ _
      have heq := h.distinct _ i en' en hlt' hi hval hsl hdel' hdel hkey'
      rw [← hpos] at heq
      have := probe_pos_inj en.edge_meta.key_pair (lt_trans hd' hd) hd heq
      omega
  have := index_of_aux_spec t en.edge_meta.key_pair d t.cap 0 (Nat.zero_le d)
    (by omega) hmid (Or.inl ⟨en, by rw [hpos]; exact hsl, hdel, rfl⟩)
  rw [probe_pos_zero h.cap_pos] at this
  rw [index_of, this, hpos]

/-- Under the invariant, `index_of_insertion` also finds the slot of a live
entry. -/
theorem index_of_insertion_found {t : PairHashTable} (h : Inv t) {i : Nat} {en : Entry}
    (hi : i < t.cap) (hsl : t.slot i = some en) (hdel : en.is_deleted = false) :
    index_of_insertion t en.edge_meta.key_pair = some i := by
  obtain ⟨d, hd, hpos, hpre⟩ := h.reach i en hi hsl hdel
  have hmid : ∀ d', 0 ≤ d' → d' < d →
      ∃ en', t.slot (probe_pos t.cap en.edge_meta.key_pair d') = some en' ∧
        ¬(en'.is_deleted = false ∧ en'.edge_meta.key_pair = en.edge_meta.key_pair) := by
    intro d' _ hd'
    have hs := hpre d' hd'
    cases hval : t.slot (probe_pos t.cap en.edge_meta.key_pair d') with
    | none => rw [hval] at hs; exact absurd hs (by simp)
    | some en' =>
      refine ⟨en', rfl, ?_⟩
      rintro ⟨hdel', hkey'⟩
      have hlt' : probe_pos t.cap en.edge_meta.key_pair d' < t.cap :=
        probe_pos_lt h.cap_pos _ _
      have heq := h.distinct _ i en' en hlt' hi hval hsl hdel' hdel hkey'
      rw [← hpos] at heq
      have := probe_pos_inj en.edge_meta.key_pair (lt_trans hd' hd) hd heq
      omega
  have := index_of_insertion_aux_spec_found t en.edge_meta.key_pair d t.cap 0 none
    (Nat.zero_le d) (by omega) hmid ⟨en, by rw [hpos]; exact hsl, hdel, rfl⟩
  rw [probe_pos_zero h.cap_pos] at this
  rw [index_of_insertion, this, hpos]

/-- The probe distance of the first empty slot when the key is absent: every
earlier probe slot is occupied by a non-matching entry. -/
theorem first_none_spec {t : PairHashTable} (h : Inv t) {key : Nat × Nat}
    (hnl : ¬ has_live t key) :
    ∃ e, e < t.cap ∧ t.slot (probe_pos t.cap key e) = none ∧
      ∀ d', d' < e →
        ∃ en, t.slot (probe_pos t.cap key d') = some en ∧
          ¬(en.is_deleted = false ∧ en.edge_meta.key_pair = key) := by
  obtain ⟨j, hj, hjn⟩ := exists_none_slot h
  obtain ⟨d0, hd0, hpos0⟩ := probe_cover h.cap_pos key j hj
  have hex : ∃ d, t.slot (probe_pos t.cap key d) = none := ⟨d0, by rw [hpos0]; exact hjn⟩
  classical
  set e := Nat.find hex with he
  have hee : t.slot (probe_pos t.cap key e) = none := Nat.find_spec hex
  have hemin : ∀ d', d' < e → t.slot (probe_pos t.cap key d') ≠ none :=
    fun d' hd' => Nat.find_min hex hd'
  refine ⟨e, ?_, hee, ?_⟩
  · have : e ≤ d0 := Nat.find_min' hex (by rw [hpos0]; exact hjn)
    omega
  · intro d' hd'
    cases hval : t.slot (probe_pos t.cap key d') with
    | none => exact absurd hval (hemin d' hd')
    | some en =>
      refine ⟨en, rfl, ?_⟩
      rintro ⟨hdel, hkey⟩
      exact hnl ⟨probe_pos t.cap key d', en, probe_pos_lt h.cap_pos _ _, hval, hdel, hkey⟩

/-- Under the invariant, looking up an absent key reaches an empty slot. -/
theorem index_of_not_found {t : PairHashTable} (h : Inv t) {key : Nat × Nat}
    (hnl : ¬ has_live t key) :
    ∃ i, index_of t key = some i ∧ t.slot i = none := by
  obtain ⟨e, he, hen, hmid⟩ := first_none_spec h hnl
  have := index_of_aux_spec t key e t.cap 0 (Nat.zero_le e) (by omega)
    (fun d' _ hd' => hmid d' hd') (Or.inr hen)
  rw [probe_pos_zero h.cap_pos] at this
  exact ⟨probe_pos t.cap key e, by rw [index_of, this], hen⟩

/-- Under the invariant, the insertion probe for an absent key returns an
unoccupied-or-tombstoned slot whose probe prefix is fully occupied. -/
theorem index_of_insertion_not_found {t : PairHashTable} (h : Inv t) {key : Nat × Nat}
    (hnl : ¬ has_live t key) :
    ∃ dr, dr < t.cap ∧
      index_of_insertion t key = some (probe_pos t.cap key dr) ∧
      (t.slot (probe_pos t.cap key dr) = none ∨
        ∃ en, t.slot (probe_pos t.cap key dr) = some en ∧ en.is_deleted = true) ∧
      (∀ d', d' < dr → (t.slot (probe_pos t.cap key d')).isSome) := by
  obtain ⟨e, he, hen, hmid⟩ := first_none_spec h hnl
  obtain ⟨dr, hdr, hrun, hslot, hpre⟩ :=
    index_of_insertion_aux_spec_empty t key e t.cap 0 none (Nat.zero_le e) (by omega)
      (fun d' _ hd' => hmid d' hd') hen (by omega) (Or.inl rfl)
  rw [probe_pos_zero h.cap_pos] at hrun
  exact ⟨dr, by omega, by rw [index_of_insertion, hrun], hslot, hpre⟩

/-- `get` returns the metadata of a live entry. -/
theorem get_live {t : PairHashTable} (h : Inv t) {i : Nat} {en : Entry}
    (hi : i < t.cap) (hsl : t.slot i = some en) (hdel : en.is_deleted = false) :
    get t en.edge_meta.key_pair = some (some en.edge_meta) := by
  simp only [get, index_of_found h hi hsl hdel, hsl]

/-- `get` returns "absent" when no live entry has the key. -/
theorem get_not_live {t : PairHashTable} (h : Inv t) {key : Nat × Nat}
    (hnl : ¬ has_live t key) : get t key = some none := by
  obtain ⟨i, hio, hin⟩ := index_of_not_found h hnl
  simp only [get, hio, hin]

/-- `get` never diverges on a well-formed table. -/
theorem get_isSome {t : PairHashTable} (h : Inv t) (key : Nat × Nat) :
    (get t key).isSome := by
  classical
  by_cases hl : has_live t key
  · obtain ⟨i, en, hi, hsl, hdel, hkey⟩ := hl
    rw [← hkey, get_live h hi hsl hdel]
    rfl
  · rw [get_not_live h hl]
    rfl

/-- The `get` outcome is exactly the live-entry relation. -/
theorem get_eq_some_iff {t : PairHashTable} (h : Inv t) (key : Nat × Nat) (m : EdgeMeta) :
    get t key = some (some m) ↔ live_with t key m := by
  classical
  constructor
  · intro hg
    by_cases hl : has_live t key
    · obtain ⟨i, en, hi, hsl, hdel, hkey⟩ := hl
      rw [← hkey] at hg
      rw [get_live h hi hsl hdel] at hg
      obtain rfl : en.edge_meta = m := by injection hg with hg1; injection hg1
      exact ⟨i, en, hi, hsl, hdel, hkey, rfl⟩
    · rw [get_not_live h hl] at hg
      simp at hg
  · rintro ⟨i, en, hi, hsl, hdel, hkey, rfl⟩
    rw [← hkey]
    exact get_live h hi hsl hdel

/-! ### State updates preserve the invariant -/

theorem getD_set (l : List (Option Entry)) (i : Nat) (hi : i < l.length)
    (v : Option Entry) (j : Nat) :
    (l.set i v).getD j none = if j = i then v else l.getD j none := by
  rw [List.getD_eq_getElem?_getD, List.getD_eq_getElem?_getD, List.getElem?_set]
  by_cases h : j = i
  · subst h
    simp [hi]
  · rw [if_neg (fun e => h e.symm), if_neg h]

theorem countSome_set (l : List (Option Entry)) :
    ∀ i, i < l.length → ∀ v : Entry,
      countSome (l.set i (some v)) =
        countSome l + (if (l.getD i none).isSome then 0 else 1) := by
  induction l with
  | nil => intro i hi; simp at hi
  | cons a l ih =>
    intro i hi v
    cases i with
    | zero =>
      cases a <;> simp [countSome, List.filter_cons]
    | succ i =>
      have hi' : i < l.length := by simpa using hi
      have hrec := ih i hi' v
      cases a <;>
        simp only [List.set_cons_succ, List.getD_cons_succ, countSome, List.filter_cons,
          Option.isSome_none, Option.isSome_some, if_true, if_false, Bool.false_eq_true,
          List.length_cons] at hrec ⊢ <;>
        simp_all <;> omega

theorem write_entry_cap (t : PairHashTable) (key : Nat × Nat) (w i : Nat) :
    (write_entry t key w i).cap = t.cap := by
  simp [write_entry, cap]

theorem write_entry_count (t : PairHashTable) (key : Nat × Nat) (w i : Nat) :
    (write_entry t key w i).count =
      if (t.slot i).isSome then t.count else t.count + 1 := rfl

theorem write_entry_slot (t : PairHashTable) (key : Nat × Nat) (w : Nat) {i : Nat}
    (hi : i < t.cap) (j : Nat) :
    (write_entry t key w i).slot j =
      if j = i then some ⟨⟨key.1, key.2, w⟩, false⟩ else t.slot j := by
  simp only [write_entry, slot]
  exact getD_set t.table i hi _ j

/-- The metadata written by `write_entry` for `key`. -/
theorem key_pair_mk (key : Nat × Nat) (w : Nat) :
    (EdgeMeta.mk key.1 key.2 w).key_pair = key := by
  simp [EdgeMeta.key_pair]

theorem countSome_write_entry (t : PairHashTable) (key : Nat × Nat) (w : Nat) {i : Nat}
    (hi : i < t.cap) :
    countSome (write_entry t key w i).table =
      countSome t.table + (if (t.slot i).isSome then 0 else 1) :=
  countSome_set t.table i hi _

theorem write_entry_inv {t : PairHashTable} (h : Inv t) (key : Nat × Nat) (w : Nat) {i : Nat}
    (hi : i < t.cap)
    (hreach : ∃ dr, dr < t.cap ∧ probe_pos t.cap key dr = i ∧
      ∀ d', d' < dr → (t.slot (probe_pos t.cap key d')).isSome)
    (huniq : ∀ j en, j < t.cap → t.slot j = some en → en.is_deleted = false →
      en.edge_meta.key_pair = key → j = i)
    (hcnt : (if (t.slot i).isSome then t.count else t.count + 1) < t.cap) :
    Inv (write_entry t key w i) := by
  obtain ⟨dr, hdr, hpos, hpre⟩ := hreach
  constructor
  · rw [write_entry_cap]
    exact h.cap_pos
  · rw [write_entry_count, countSome_write_entry t key w hi]
    have := h.count_eq
    cases hs : (t.slot i).isSome <;> simp only [hs, if_true, if_false,
      Bool.false_eq_true] <;> omega
  · rw [write_entry_count, write_entry_cap]
    exact hcnt
  · intro j en hj hsl hdel
    rw [write_entry_cap] at hj
    rw [write_entry_slot t key w hi j] at hsl
    simp only [write_entry_cap, write_entry_slot t key w hi]
    by_cases hji : j = i
    · rw [if_pos hji] at hsl
      injection hsl with hsl
      subst hsl
      refine ⟨dr, hdr, ?_, ?_⟩
      · rw [key_pair_mk, hpos, hji]
      · intro d' hd'
        rw [key_pair_mk]
        split
        · rfl
        · exact hpre d' hd'
    · rw [if_neg hji] at hsl
      obtain ⟨d, hd, hdpos, hdpre⟩ := h.reach j en hj hsl hdel
      refine ⟨d, hd, hdpos, ?_⟩
      intro d' hd'
      split
      · rfl
      · exact hdpre d' hd'
  · intro j j' en en' hj hj' hsl hsl' hdel hdel' hkey
    rw [write_entry_cap] at hj hj'
    rw [write_entry_slot t key w hi j] at hsl
    rw [write_entry_slot t key w hi j'] at hsl'
    by_cases hji : j = i <;> by_cases hji' : j' = i
    · rw [hji, hji']
    · rw [if_pos hji] at hsl
      rw [if_neg hji'] at hsl'
      injection hsl with hsl
      subst hsl
      rw [key_pair_mk] at hkey
      exact absurd (huniq j' en' hj' hsl' hdel' hkey.symm) hji'
    · rw [if_neg hji] at hsl
      rw [if_pos hji'] at hsl'
      injection hsl' with hsl'
      subst hsl'
      rw [key_pair_mk] at hkey
      exact absurd (huniq j en hj hsl hdel hkey) hji
    · rw [if_neg hji] at hsl
      rw [if_neg hji'] at hsl'
      exact h.distinct j j' en en' hj hj' hsl hsl' hdel hdel' hkey

/-- Unique live metadata per key, from the `distinct` invariant. -/
theorem live_with_unique {t : PairHashTable} (h : Inv t) {key : Nat × Nat} {m m' : EdgeMeta}
    (h1 : live_with t key m) (h2 : live_with t key m') : m = m' := by
  obtain ⟨i, en, hi, hsl, hdel, hkey, rfl⟩ := h1
  obtain ⟨i', en', hi', hsl', hdel', hkey', rfl⟩ := h2
  have := h.distinct i i' en en' hi hi' hsl hsl' hdel hdel' (by rw [hkey, hkey'])
  subst this
  rw [hsl] at hsl'
  injection hsl' with hsl'
  rw [hsl']

theorem slot_with_capacity (m i : Nat) : (with_capacity m).slot i = none := by
  simp only [with_capacity, slot]
  rcases Nat.lt_or_ge i m with hi | hi
  · rw [List.getD_eq_getElem?_getD]
    simp [List.getElem?_replicate, hi]
  · rw [List.getD_eq_default]
    simpa using hi

theorem countSome_replicate (m : Nat) : countSome (List.replicate m none) = 0 := by
  unfold countSome
  induction m with
  | zero => rfl
  | succ m ih => simpa [List.replicate_succ, List.filter_cons] using ih

theorem inv_with_capacity {m : Nat} (hm : 0 < m) : Inv (with_capacity m) := by
  constructor
  · simpa [with_capacity, cap] using hm
  · show 0 = countSome (List.replicate m none)
    rw [countSome_replicate]
  · simpa [with_capacity, cap] using hm
  · intro i en _ hsl _
    rw [slot_with_capacity] at hsl
    exact absurd hsl (by simp)
  · intro i j en en' _ _ hsl _ _ _ _
    rw [slot_with_capacity] at hsl
    exact absurd hsl (by simp)

theorem has_live_iff (t : PairHashTable) (key : Nat × Nat) :
    has_live t key ↔ ∃ m, live_with t key m := by
  constructor
  · rintro ⟨i, en, hi, hsl, hdel, hkey⟩
    exact ⟨en.edge_meta, i, en, hi, hsl, hdel, hkey, rfl⟩
  · rintro ⟨m, i, en, hi, hsl, hdel, hkey, _⟩
    exact ⟨i, en, hi, hsl, hdel, hkey⟩

theorem meta_eta (e : EdgeMeta) :
    EdgeMeta.mk e.key_pair.1 e.key_pair.2 e.weight = e := by
  cases e
  simp [EdgeMeta.key_pair]

theorem max_load_lt {c : Nat} (hc : 0 < c) : max_load_count c < c := by
  unfold max_load_count
  omega

theorem cap_le_max_load_double (c : Nat) : c ≤ max_load_count (c * GROW_FACTOR) := by
  unfold max_load_count GROW_FACTOR
  omega

/-- The shared tail of `insert` after the (possible) resize: probe for the
insertion site and write, with all consequences needed downstream. -/
theorem step_spec {t : PairHashTable} (h : Inv t) (key : Nat × Nat) (w : Nat)
    (hroom : t.count + 1 < t.cap) :
    ∃ i, index_of_insertion t key = some i ∧ i < t.cap ∧
      Inv (write_entry t key w i) ∧
      (write_entry t key w i).cap = t.cap ∧
      (write_entry t key w i).count ≤ t.count + 1 ∧
      live_with (write_entry t key w i) key ⟨key.1, key.2, w⟩ ∧
      (∀ k' m, k' ≠ key → (live_with (write_entry t key w i) k' m ↔ live_with t k' m)) ∧
      (has_live t key → (t.slot i).isSome = true) := by
  classical
  by_cases hl : has_live t key
  · obtain ⟨i0, en, hi0, hsl, hdel, hkey⟩ := hl
    have hfind : index_of_insertion t key = some i0 := by
      have := index_of_insertion_found h hi0 hsl hdel
      rwa [hkey] at this
    obtain ⟨d, hd, hdpos, hdpre⟩ := h.reach i0 en hi0 hsl hdel
    rw [hkey] at hdpos hdpre
    have huniq : ∀ j en', j < t.cap → t.slot j = some en' → en'.is_deleted = false →
        en'.edge_meta.key_pair = key → j = i0 := by
      intro j en' hj hsl' hdel' hkey'
      exact h.distinct j i0 en' en hj hi0 hsl' hsl hdel' hdel (by rw [hkey', hkey])
    have hcnt : (if (t.slot i0).isSome then t.count else t.count + 1) < t.cap := by
      rw [hsl]
      simpa using h.count_lt
    have hinv := write_entry_inv h key w hi0 ⟨d, hd, hdpos, hdpre⟩ huniq hcnt
    refine ⟨i0, hfind, hi0, hinv, write_entry_cap t key w i0, ?_, ?_, ?_, ?_⟩
    · rw [write_entry_count, hsl]
      simp
    · exact ⟨i0, ⟨⟨key.1, key.2, w⟩, false⟩, by rw [write_entry_cap]; exact hi0,
        by rw [write_entry_slot t key w hi0]; simp, rfl, key_pair_mk key w, rfl⟩
    · intro k' m hk'
      constructor
      · rintro ⟨j, en', hj, hsl', hdel', hkey', rfl⟩
        rw [write_entry_cap] at hj
        rw [write_entry_slot t key w hi0 j] at hsl'
        by_cases hji : j = i0
        · rw [if_pos hji] at hsl'
          injection hsl' with hsl'
          subst hsl'
          rw [key_pair_mk] at hkey'
          exact absurd hkey' hk'.symm
        · rw [if_neg hji] at hsl'
          exact ⟨j, en', hj, hsl', hdel', hkey', rfl⟩
      · rintro ⟨j, en', hj, hsl', hdel', hkey', rfl⟩
        have hji : j ≠ i0 := by
          intro e
          subst e
          rw [hsl] at hsl'
          injection hsl' with hsl'
          subst hsl'
          exact hk' (by rw [← hkey', hkey])
        exact ⟨j, en', by rw [write_entry_cap]; exact hj,
          by rw [write_entry_slot t key w hi0]; rw [if_neg hji]; exact hsl', hdel', hkey', rfl⟩
    · intro _
      rw [hsl]
      rfl
  · obtain ⟨dr, hdr, hfind, hslot, hpre⟩ := index_of_insertion_not_found h hl
    have hi0 : probe_pos t.cap key dr < t.cap := probe_pos_lt h.cap_pos key dr
    have huniq : ∀ j en', j < t.cap → t.slot j = some en' → en'.is_deleted = false →
        en'.edge_meta.key_pair = key → j = probe_pos t.cap key dr := by
      intro j en' hj hsl' hdel' hkey'
      exact absurd ⟨j, en', hj, hsl', hdel', hkey'⟩ hl
    have hcnt : (if (t.slot (probe_pos t.cap key dr)).isSome then t.count else t.count + 1) <
        t.cap := by
      rcases hslot with hnone | ⟨en, hsome, _⟩
      · rw [hnone]
        simpa using hroom
      · rw [hsome]
        simpa using h.count_lt
    have hinv := write_entry_inv h key w hi0 ⟨dr, hdr, rfl, hpre⟩ huniq hcnt
    refine ⟨probe_pos t.cap key dr, hfind, hi0, hinv, write_entry_cap t key w _, ?_, ?_, ?_,
      fun hcontra => absurd hcontra hl⟩
    · rw [write_entry_count]
      split <;> omega
    · exact ⟨probe_pos t.cap key dr, ⟨⟨key.1, key.2, w⟩, false⟩,
        by rw [write_entry_cap]; exact hi0,
        by rw [write_entry_slot t key w hi0]; simp, rfl, key_pair_mk key w, rfl⟩
    · intro k' m hk'
      constructor
      · rintro ⟨j, en', hj, hsl', hdel', hkey', rfl⟩
        rw [write_entry_cap] at hj
        rw [write_entry_slot t key w hi0 j] at hsl'
        by_cases hji : j = probe_pos t.cap key dr
        · rw [if_pos hji] at hsl'
          injection hsl' with hsl'
          subst hsl'
          rw [key_pair_mk] at hkey'
          exact absurd hkey' hk'.symm
        · rw [if_neg hji] at hsl'
          exact ⟨j, en', hj, hsl', hdel', hkey', rfl⟩
      · rintro ⟨j, en', hj, hsl', hdel', hkey', rfl⟩
        have hji : j ≠ probe_pos t.cap key dr := by
          intro e
          subst e
          rcases hslot with hnone | ⟨en2, hsome, hdel2⟩
          · rw [hnone] at hsl'
            exact absurd hsl' (by simp)
          · rw [hsome] at hsl'
            injection hsl' with hsl'
            subst hsl'
            rw [hdel2] at hdel'
            exact absurd hdel' (by simp)
        exact ⟨j, en', by rw [write_entry_cap]; exact hj,
          by rw [write_entry_slot t key w hi0]; rw [if_neg hji]; exact hsl', hdel', hkey', rfl⟩

theorem countSome_take_succ (l : List (Option Entry)) (n : Nat) (hn : n < l.length) :
    countSome (l.take (n + 1)) =
      countSome (l.take n) + (if (l.getD n none).isSome then 1 else 0) := by
  rw [List.take_succ]
  unfold countSome
  rw [List.filter_append, List.length_append]
  have hgd : l[n]? = some (l.getD n none) := by
    rw [List.getElem?_eq_getElem hn, List.getD_eq_getElem l none hn]
  cases ho : l.getD n none with
  | none =>
    rw [ho] at hgd
    simp [hgd, ho]
  | some v =>
    rw [ho] at hgd
    simp [hgd, ho]

theorem countSome_take_le (l : List (Option Entry)) (n : Nat) :
    countSome (l.take n) ≤ countSome l :=
  List.Sublist.length_le (List.Sublist.filter _ (List.take_sublist n l))

/-- The `resize` walk re-inserts exactly the live entries of the old table;
fold invariant formulation. -/
theorem resize_go_spec {t : PairHashTable} (h : Inv t) :
    ∀ left acc, left ≤ t.cap → Inv acc → acc.cap = t.cap * GROW_FACTOR →
      (∀ j en, acc.slot j = some en → en.is_deleted = false) →
      acc.count ≤ countSome (t.table.take (t.cap - left)) →
      (∀ k m, live_with acc k m ↔
        ∃ j en, j < t.cap - left ∧ t.slot j = some en ∧ en.is_deleted = false ∧
          en.edge_meta.key_pair = k ∧ en.edge_meta = m) →
      ∃ t', resize_go t left acc = some t' ∧ Inv t' ∧ t'.cap = t.cap * GROW_FACTOR ∧
        t'.count ≤ t.count ∧
        (∀ k m, live_with t' k m ↔ live_with t k m) := by
  intro left
  induction left with
  | zero =>
    intro acc _ hinv hcap _ hcnt hchar
    refine ⟨acc, rfl, hinv, hcap, ?_, ?_⟩
    · rw [Nat.sub_zero] at hcnt
      have hct : t.table.take t.cap = t.table := by
        show t.table.take t.table.length = t.table
        exact List.take_length t.table
      rw [hct] at hcnt
      rw [h.count_eq]
      exact hcnt
    · intro k m
      rw [hchar k m, Nat.sub_zero]
      unfold live_with
      rfl
  | succ left ih =>
    intro acc hle hinv hcap hnt hcnt hchar
    have hcappos : 0 < t.cap := by omega
    have hn : t.cap - (left + 1) < t.cap := by omega
    have hn1 : t.cap - left = t.cap - (left + 1) + 1 := by omega
    have hnlen : t.cap - (left + 1) < t.table.length := hn
    cases hsl : t.slot (t.cap - (left + 1)) with
    | none =>
      have hstep : resize_go t (left + 1) acc = resize_go t left acc := by
        simp only [resize_go, hsl]
      rw [hstep]
      refine ih acc (by omega) hinv hcap hnt ?_ ?_
      · rw [hn1, countSome_take_succ t.table _ hnlen]
        have : t.table.getD (t.cap - (left + 1)) none = none := hsl
        rw [this]
        simpa using hcnt
      · intro k m
        rw [hchar k m]
        constructor
        · rintro ⟨j, en, hj, hsl', hdel, hkey, hm⟩
          exact ⟨j, en, by omega, hsl', hdel, hkey, hm⟩
        · rintro ⟨j, en, hj, hsl', hdel, hkey, hm⟩
          refine ⟨j, en, ?_, hsl', hdel, hkey, hm⟩
          rcases Nat.lt_or_ge j (t.cap - (left + 1)) with hc | hc
          · exact hc
          · have : j = t.cap - (left + 1) := by omega
            rw [this, hsl] at hsl'
            exact absurd hsl' (by simp)
    | some en =>
      cases hdel : en.is_deleted with
      | true =>
        have hstep : resize_go t (left + 1) acc = resize_go t left acc := by
          simp only [resize_go, hsl, hdel]
          rfl
        rw [hstep]
        refine ih acc (by omega) hinv hcap hnt ?_ ?_
        · rw [hn1, countSome_take_succ t.table _ hnlen]
          omega
        · intro k m
          rw [hchar k m]
          constructor
          · rintro ⟨j, en', hj, hsl', hdel', hkey, hm⟩
            exact ⟨j, en', by omega, hsl', hdel', hkey, hm⟩
          · rintro ⟨j, en', hj, hsl', hdel', hkey, hm⟩
            refine ⟨j, en', ?_, hsl', hdel', hkey, hm⟩
            rcases Nat.lt_or_ge j (t.cap - (left + 1)) with hc | hc
            · exact hc
            · have hj' : j = t.cap - (left + 1) := by omega
              rw [hj', hsl] at hsl'
              injection hsl' with hsl'
              subst hsl'
              rw [hdel] at hdel'
              exact absurd hdel' (by simp)
      | false =>
        -- live entry: re-insert it into acc
        have hcnt_take : countSome (t.table.take (t.cap - left)) ≤ countSome t.table :=
          countSome_take_le _ _
        have hsucc : countSome (t.table.take (t.cap - left)) =
            countSome (t.table.take (t.cap - (left + 1))) + 1 := by
          rw [hn1, countSome_take_succ t.table _ hnlen]
          have : t.table.getD (t.cap - (left + 1)) none = some en := hsl
          rw [this]
          rfl
        have hroom : acc.count + 1 < acc.cap := by
          have h1 : acc.count + 1 ≤ countSome t.table := by omega
          have h2 := h.count_eq
          have h3 := h.count_lt
          rw [hcap]
          unfold GROW_FACTOR
          omega
        have hnotlive : ¬ has_live acc en.edge_meta.key_pair := by
          rw [has_live_iff]
          rintro ⟨m, hlm⟩
          rw [hchar _ m] at hlm
          obtain ⟨j, en', hj, hsl', hdel', hkey, hm⟩ := hlm
          have hjlt : j < t.cap := by omega
          have := h.distinct j (t.cap - (left + 1)) en' en hjlt hn hsl' hsl hdel' hdel hkey
          omega
        have hcheck : ¬ (acc.count + 1 > max_load_count acc.cap) := by
          have h1 : acc.count + 1 ≤ countSome t.table := by omega
          have h2 := h.count_eq
          have h3 := h.count_lt
          have h4 := cap_le_max_load_double t.cap
          rw [hcap]
          omega
        obtain ⟨i, hfind, hi, hinv', hcap', hcnt', hlivenew, hpres, _⟩ :=
          step_spec hinv en.edge_meta.key_pair en.edge_meta.weight hroom
        have hstep : resize_go t (left + 1) acc =
            resize_go t left (write_entry acc en.edge_meta.key_pair en.edge_meta.weight i) := by
          simp only [resize_go, hsl, hdel, eq_self_iff_true, if_true, insert_inner,
            if_neg hcheck, hfind]
        rw [hstep]
        have hmeta : (EdgeMeta.mk en.edge_meta.key_pair.1 en.edge_meta.key_pair.2
            en.edge_meta.weight) = en.edge_meta := meta_eta en.edge_meta
        refine ih (write_entry acc en.edge_meta.key_pair en.edge_meta.weight i) (by omega)
          hinv' (by rw [hcap', hcap]) ?_ ?_ ?_
        · intro j en' hsl'
          by_cases hji : j = i
          · rw [hji, write_entry_slot acc _ _ hi] at hsl'
            rw [if_pos rfl] at hsl'
            injection hsl' with hsl'
            subst hsl'
            rfl
          · rw [write_entry_slot acc _ _ hi, if_neg hji] at hsl'
            exact hnt j en' hsl'
        · calc (write_entry acc en.edge_meta.key_pair en.edge_meta.weight i).count
              ≤ acc.count + 1 := hcnt'
          _ ≤ countSome (t.table.take (t.cap - (left + 1))) + 1 := by omega
          _ = countSome (t.table.take (t.cap - left)) := hsucc.symm
        · intro k m
          classical
          rw [hmeta] at hlivenew
          by_cases hk : k = en.edge_meta.key_pair
          · subst hk
            constructor
            · intro hlm
              have hme := live_with_unique hinv' hlm hlivenew
              subst hme
              exact ⟨t.cap - (left + 1), en, by omega, hsl, hdel, rfl, rfl⟩
            · rintro ⟨j, en', hj, hsl', hdel', hkey', hm⟩
              rcases Nat.lt_or_ge j (t.cap - (left + 1)) with hc | hc
              · have : has_live acc en.edge_meta.key_pair := by
                  rw [has_live_iff]
                  refine ⟨m, ?_⟩
                  rw [hchar _ m]
                  exact ⟨j, en', hc, hsl', hdel', hkey', hm⟩
                exact absurd this hnotlive
              · have hj' : j = t.cap - (left + 1) := by omega
                rw [hj', hsl] at hsl'
                injection hsl' with hsl'
                subst hsl'
                subst hm
                exact hlivenew
          · rw [hpres k m hk, hchar k m]
            constructor
            · rintro ⟨j, en', hj, hsl', hdel', hkey', hm⟩
              exact ⟨j, en', by omega, hsl', hdel', hkey', hm⟩
            · rintro ⟨j, en', hj, hsl', hdel', hkey', hm⟩
              rcases Nat.lt_or_ge j (t.cap - (left + 1)) with hc | hc
              · exact ⟨j, en', hc, hsl', hdel', hkey', hm⟩
              · have hj' : j = t.cap - (left + 1) := by omega
                rw [hj', hsl] at hsl'
                injection hsl' with hsl'
                subst hsl'
                exact absurd hkey'.symm hk

/-- `resize` to the doubled capacity succeeds on a well-formed table, produces
a well-formed table of the new capacity with no more occupied slots than
before, and preserves exactly the live-entry relation (weights included). -/
theorem resize_spec {t : PairHashTable} (h : Inv t) :
    ∃ t', resize t (t.cap * GROW_FACTOR) = some t' ∧ Inv t' ∧
      t'.cap = t.cap * GROW_FACTOR ∧ t'.count ≤ t.count ∧
      (∀ k m, live_with t' k m ↔ live_with t k m) := by
  have hcap2 : 0 < t.cap * GROW_FACTOR := by
    have := h.cap_pos
    unfold GROW_FACTOR
    omega
  have hacccap : (with_capacity (t.cap * GROW_FACTOR)).cap = t.cap * GROW_FACTOR := by
    simp [with_capacity, cap]
  unfold resize
  refine resize_go_spec h t.cap (with_capacity (t.cap * GROW_FACTOR)) (le_refl _)
    (inv_with_capacity hcap2) hacccap ?_ ?_ ?_
  · intro j en hsl
    rw [slot_with_capacity] at hsl
    exact absurd hsl (by simp)
  · exact Nat.zero_le _
  · intro k m
    constructor
    · rintro ⟨j, en, _, hsl, _⟩
      rw [slot_with_capacity] at hsl
      exact absurd hsl (by simp)
    · rintro ⟨j, en, hj, _⟩
      omega

/-- `insert` on a well-formed table always succeeds, preserves the invariant,
makes the key live with the written weight, leaves every other key's live-entry
relation unchanged, and returns `true` whenever the key was present. -/
theorem insert_spec {t : PairHashTable} (h : Inv t) (key : Nat × Nat) (w : Nat) :
    ∃ b t', insert t key w = some (b, t') ∧ Inv t' ∧
      live_with t' key ⟨key.1, key.2, w⟩ ∧
      (∀ k' m, k' ≠ key → (live_with t' k' m ↔ live_with t k' m)) ∧
      (has_live t key → b = true) := by
  by_cases hover : t.count + 1 > max_load_count t.cap
  · obtain ⟨t1, hres, hinv1, hcap1, hcnt1, hpres1⟩ := resize_spec h
    have hroom : t1.count + 1 < t1.cap := by
      have h1 := h.count_lt
      have h2 := h.cap_pos
      rw [hcap1]
      unfold GROW_FACTOR
      omega
    obtain ⟨i, hfind, hi, hinv', hcap', hcnt', hlive', hpres', hocc⟩ :=
      step_spec hinv1 key w hroom
    refine ⟨(t1.slot i).isSome, write_entry t1 key w i, ?_, hinv', hlive', ?_, ?_⟩
    · simp only [insert, if_pos hover, hres, hfind]
    · intro k' m hk'
      rw [hpres' k' m hk', hpres1 k' m]
    · intro hl
      refine hocc ?_
      rw [has_live_iff] at hl ⊢
      obtain ⟨m, hm⟩ := hl
      exact ⟨m, (hpres1 key m).mpr hm⟩
  · have hroom : t.count + 1 < t.cap := by
      have := max_load_lt h.cap_pos
      omega
    obtain ⟨i, hfind, hi, hinv', hcap', hcnt', hlive', hpres', hocc⟩ :=
      step_spec h key w hroom
    refine ⟨(t.slot i).isSome, write_entry t key w i, ?_, hinv', hlive', ?_, hocc⟩
    · simp only [insert, if_neg hover, hfind]
    · intro k' m hk'
      exact hpres' k' m hk'

/-- `delete` on a well-formed table always succeeds, returns exactly whether
the key was live, leaves the key dead, and preserves every other key's
live-entry relation. -/
theorem delete_spec {t : PairHashTable} (h : Inv t) (key : Nat × Nat) :
    ∃ b t', delete t key = some (b, t') ∧ Inv t' ∧
      ((b = true) ↔ has_live t key) ∧
      ¬ has_live t' key ∧
      (∀ k' m, k' ≠ key → (live_with t' k' m ↔ live_with t k' m)) := by
  classical
  by_cases hc0 : t.count = 0
  · have hnl : ¬ has_live t key := by
      rintro ⟨i, en, hi, hsl, _, _⟩
      have hcs : countSome t.table = 0 := by rw [← h.count_eq]; exact hc0
      unfold countSome at hcs
      rw [List.length_eq_zero] at hcs
      have hmem : (some en) ∈ t.table.filter Option.isSome := by
        rw [List.mem_filter]
        refine ⟨?_, rfl⟩
        rw [slot_eq_getElem t i hi] at hsl
        rw [← hsl]
        exact List.get_mem t.table i hi
      rw [hcs] at hmem
      exact absurd hmem (List.not_mem_nil _)
    exact ⟨false, t, by simp only [delete, if_pos hc0], h, by simp [hnl], hnl,
      fun _ _ _ => Iff.rfl⟩
  · by_cases hl : has_live t key
    · have hl0 := hl
      obtain ⟨i0, en, hi0, hsl, hdel, hkey⟩ := hl
      have hfind : index_of_insertion t key = some i0 := by
        have := index_of_insertion_found h hi0 hsl hdel
        rwa [hkey] at this
      obtain ⟨t', ht'⟩ : ∃ t', ({ t with table := t.table.set i0 (some { en with is_deleted := true }) } : PairHashTable) = t' := ⟨_, rfl⟩
      have hcap' : t'.cap = t.cap := by rw [← ht']; simp [cap]
      have hslot' : ∀ j, t'.slot j = if j = i0 then some { en with is_deleted := true } else t.slot j := by
        intro j
        rw [← ht']
        exact getD_set t.table i0 hi0 _ j
      have hcount' : t'.count = t.count := by rw [← ht']
      have htbl' : t'.table = t.table.set i0 (some { en with is_deleted := true }) := by rw [← ht']
      refine ⟨true, t', ?_, ?_, ?_, ?_, ?_⟩
      · simp only [delete, if_neg hc0, hfind, hsl, hdel, Bool.false_eq_true, if_false]
        rw [ht']
      · refine ⟨by rw [hcap']; exact h.cap_pos, ?_, by rw [hcap', hcount']; exact h.count_lt, ?_, ?_⟩
        · rw [hcount', htbl', countSome_set t.table i0 hi0]
          have hs : (t.table.getD i0 none).isSome = true := by
            show (t.slot i0).isSome = true
            rw [hsl]
            rfl
          rw [hs]
          simpa using h.count_eq
        · intro j en' hj hsl' hdel'
          rw [hcap'] at hj
          rw [hslot' j] at hsl'
          by_cases hji : j = i0
          · rw [if_pos hji] at hsl'
            injection hsl' with hsl'
            subst hsl'
            exact absurd hdel' (by simp)
          · rw [if_neg hji] at hsl'
            obtain ⟨d, hd, hdpos, hdpre⟩ := h.reach j en' hj hsl' hdel'
            rw [hcap']
            refine ⟨d, hd, hdpos, ?_⟩
            intro d' hd'
            have hp := hdpre d' hd'
            rw [hslot']
            by_cases hpi : probe_pos t.cap en'.edge_meta.key_pair d' = i0
            · rw [if_pos hpi]
              rfl
            · rw [if_neg hpi]
              exact hp
        · intro j j' en1 en2 hj hj' hsl1 hsl2 hdel1 hdel2 hkeys
          rw [hcap'] at hj hj'
          rw [hslot' j] at hsl1
          rw [hslot' j'] at hsl2
          by_cases hji : j = i0
          · rw [if_pos hji] at hsl1
            injection hsl1 with hsl1
            subst hsl1
            exact absurd hdel1 (by simp)
          · by_cases hji' : j' = i0
            · rw [if_pos hji'] at hsl2
              injection hsl2 with hsl2
              subst hsl2
              exact absurd hdel2 (by simp)
            · rw [if_neg hji] at hsl1
              rw [if_neg hji'] at hsl2
              exact h.distinct j j' en1 en2 hj hj' hsl1 hsl2 hdel1 hdel2 hkeys
      · simp only [true_iff]
        exact hl0
      · rintro ⟨j, en', hj, hsl', hdel', hkey'⟩
        rw [hcap'] at hj
        rw [hslot' j] at hsl'
        by_cases hji : j = i0
        · rw [if_pos hji] at hsl'
          injection hsl' with hsl'
          subst hsl'
          exact absurd hdel' (by simp)
        · rw [if_neg hji] at hsl'
          exact hji (h.distinct j i0 en' en hj hi0 hsl' hsl hdel' hdel (by rw [hkey', hkey]))
      · intro k' m hk'
        constructor
        · rintro ⟨j, en', hj, hsl', hdel', hkey', hm⟩
          rw [hcap'] at hj
          rw [hslot' j] at hsl'
          by_cases hji : j = i0
          · rw [if_pos hji] at hsl'
            injection hsl' with hsl'
            subst hsl'
            exact absurd hdel' (by simp)
          · rw [if_neg hji] at hsl'
            exact ⟨j, en', hj, hsl', hdel', hkey', hm⟩
        · rintro ⟨j, en', hj, hsl', hdel', hkey', hm⟩
          have hji : j ≠ i0 := by
            intro e
            subst e
            rw [hsl] at hsl'
            injection hsl' with hsl'
            subst hsl'
            exact hk' (by rw [← hkey', hkey])
          refine ⟨j, en', by rw [hcap']; exact hj, ?_, hdel', hkey', hm⟩
          rw [hslot' j, if_neg hji]
          exact hsl'
    · obtain ⟨dr, hdr, hfind, hslot, hpre⟩ := index_of_insertion_not_found h hl
      refine ⟨false, t, ?_, h, by simp [hl], hl, fun _ _ _ => Iff.rfl⟩
      rcases hslot with hnone | ⟨en, hsome, hdel⟩
      · simp only [delete, if_neg hc0, hfind, hnone]
      · simp only [delete, if_neg hc0, hfind, hsome, hdel]
        rfl

/-! ### Probe termination and operation sequences -/

/-- Under the invariant the `index_of` probe loop always returns (within
`capacity` steps): it never exhausts its exact fuel. -/
theorem index_of_total {t : PairHashTable} (h : Inv t) (key : Nat × Nat) :
    (index_of t key).isSome = true := by
  classical
  by_cases hl : has_live t key
  · obtain ⟨i, en, hi, hsl, hdel, hkey⟩ := hl
    have := index_of_found h hi hsl hdel
    rw [hkey] at this
    rw [this]
    rfl
  · obtain ⟨i, hio, _⟩ := index_of_not_found h hl
    rw [hio]
    rfl

/-- Under the invariant the `index_of_insertion` probe loop always returns. -/
theorem index_of_insertion_total {t : PairHashTable} (h : Inv t) (key : Nat × Nat) :
    (index_of_insertion t key).isSome = true := by
  classical
  by_cases hl : has_live t key
  · obtain ⟨i, en, hi, hsl, hdel, hkey⟩ := hl
    have := index_of_insertion_found h hi hsl hdel
    rw [hkey] at this
    rw [this]
    rfl
  · obtain ⟨dr, _, hio, _, _⟩ := index_of_insertion_not_found h hl
    rw [hio]
    rfl

/-- A client operation on a `PairHashTable`. -/
inductive TOp where
  | ins (key : Nat × Nat) (weight : Nat)
  | del (key : Nat × Nat)
  | qry (key : Nat × Nat)

/-- Run one operation, keeping the resulting table (a `qry` leaves the table
unchanged but demands that `get` returns). `none` models divergence. -/
def run_op (t : PairHashTable) : TOp → Option PairHashTable
  | .ins key w => (insert t key w).map Prod.snd
  | .del key => (delete t key).map Prod.snd
  | .qry key => (get t key).map fun _ => t

/-- Run a sequence of operations from the left. -/
def run_ops (t : PairHashTable) : List TOp → Option PairHashTable
  | [] => some t
  | op :: ops => (run_op t op).bind fun t' => run_ops t' ops

/-- Every operation on a well-formed table succeeds and preserves the
invariant. -/
theorem run_op_inv {t : PairHashTable} (h : Inv t) (op : TOp) :
    ∃ t', run_op t op = some t' ∧ Inv t' := by
  cases op with
  | ins key w =>
    obtain ⟨b, t', he, hinv, _⟩ := insert_spec h key w
    exact ⟨t', by simp [run_op, he], hinv⟩
  | del key =>
    obtain ⟨b, t', he, hinv, _⟩ := delete_spec h key
    exact ⟨t', by simp [run_op, he], hinv⟩
  | qry key =>
    have hs := get_isSome h key
    cases hg : get t key with
    | none => rw [hg] at hs; exact absurd hs (by simp)
    | some v => exact ⟨t, by simp [run_op, hg], h⟩

/-- Every operation sequence on a well-formed table runs to completion and
preserves the invariant. -/
theorem run_ops_inv {t : PairHashTable} (h : Inv t) (ops : List TOp) :
    ∃ t', run_ops t ops = some t' ∧ Inv t' := by
  induction ops generalizing t with
  | nil => exact ⟨t, rfl, h⟩
  | cons op ops ih =>
    obtain ⟨t1, he1, hinv1⟩ := run_op_inv h op
    obtain ⟨t', he', hinv'⟩ := ih hinv1
    exact ⟨t', by rw [run_ops, he1, Option.some_bind, he'], hinv'⟩

/-- A successful run of an operation sequence from a well-formed table lands on
a well-formed table. -/
theorem run_ops_inv_of_eq {t t' : PairHashTable} (h : Inv t) (ops : List TOp)
    (he : run_ops t ops = some t') : Inv t' := by
  obtain ⟨t2, he2, hinv⟩ := run_ops_inv h ops
  rw [he] at he2
  injection he2 with e
  rw [e]
  exact hinv

/-- A table at capacity 4 holding three live entries, built by running three
inserts on an empty table: one further insert crosses the 0.75 load factor. -/
def c5t : PairHashTable :=
  (run_ops (with_capacity 4) [TOp.ins (0, 0) 1, TOp.ins (0, 1) 1, TOp.ins (1, 0) 1]).getD
    (with_capacity 4)

theorem c5t_inv : Inv c5t := by
  have h0 : Inv (with_capacity 4) := inv_with_capacity (by decide)
  exact run_ops_inv_of_eq h0 [TOp.ins (0, 0) 1, TOp.ins (0, 1) 1, TOp.ins (1, 0) 1]
    (by decide)

end PairHashTable

/-- `HashGraph` (src/hash/mod.rs lines 184-189): pushed node values plus a
`PairHashTable` of edges keyed by `(from, to)`. -/
structure HashGraph where
  count : Nat
  nodes : List Nat
  edges : PairHashTable

namespace HashGraph

/-- `HashGraph::with_capacity`. -/
def with_capacity (size : Nat) : HashGraph :=
  { count := 0, nodes := [], edges := PairHashTable.with_capacity size }

/-- `HashGraph::add_edge`: `self.edges.insert((from, to), 1)`. -/
def add_edge (g : HashGraph) (fm tn : Nat) : Option (Bool × HashGraph) :=
  (g.edges.insert (fm, tn) 1).map fun r => (r.1, { g with edges := r.2 })

/-- `HashGraph::remove_edge`: `self.edges.delete((from, to))`. -/
def remove_edge (g : HashGraph) (fm tn : Nat) : Option (Bool × HashGraph) :=
  (g.edges.delete (fm, tn)).map fun r => (r.1, { g with edges := r.2 })

/-- `HashGraph::has_edge`: `self.edges.get((from, to)).is_some()`. -/
def has_edge (g : HashGraph) (fm tn : Nat) : Option Bool :=
  (g.edges.get (fm, tn)).map Option.isSome

/-- `HashGraph::get_edge`. -/
def get_edge (g : HashGraph) (fm tn : Nat) : Option (Option EdgeMeta) :=
  g.edges.get (fm, tn)

/-- `HashGraph::set_edge`: `self.edges.insert(from_to, weight)`. -/
def set_edge (g : HashGraph) (from_to : Nat × Nat) (weight : Nat) :
    Option (Bool × HashGraph) :=
  (g.edges.insert from_to weight).map fun r => (r.1, { g with edges := r.2 })

/-- `HashGraph::push_node`: bump `count`, append the value, return the new
node's index `nodes.len() - 1`. -/
def push_node (g : HashGraph) (value : Nat) : Nat × HashGraph :=
  (g.nodes.length, { g with count := g.count + 1, nodes := g.nodes ++ [value] })

/-- The `for i in 0..count { if get(f(i)).is_some() { out.push(i) } }` loop
shared by `outgoing_edges_of` and `incoming_edges_of` (src/hash/mod.rs lines
227-249), in ascending order of `i`. -/
def edges_scan (t : PairHashTable) (f : Nat → Nat × Nat) : Nat → Option (List Nat)
  | 0 => some []
  | n + 1 =>
    (edges_scan t f n).bind fun acc =>
      (PairHashTable.get t (f n)).map fun r => if r.isSome then acc ++ [n] else acc

/-- `HashGraph::outgoing_edges_of`. -/
def outgoing_edges_of (g : HashGraph) (node_index : Nat) : Option (List Nat) :=
  edges_scan g.edges (fun i => (node_index, i)) g.count

/-- `HashGraph::incoming_edges_of`. -/
def incoming_edges_of (g : HashGraph) (node_index : Nat) : Option (List Nat) :=
  edges_scan g.edges (fun i => (i, node_index)) g.count

/-- On a well-formed table the scan completes and returns the predicate-filtered
ascending index range. -/
theorem edges_scan_spec {t : PairHashTable} (h : PairHashTable.Inv t)
    (f : Nat → Nat × Nat) (n : Nat) :
    edges_scan t f n =
      some ((List.range n).filter fun i =>
        ((PairHashTable.get t (f i)).getD none).isSome) := by
  induction n with
  | zero => rfl
  | succ n ih =>
    rw [edges_scan, ih, Option.some_bind]
    have hs := PairHashTable.get_isSome h (f n)
    cases hg : PairHashTable.get t (f n) with
    | none => rw [hg] at hs; exact absurd hs (by simp)
    | some v =>
      rw [Option.map_some']
      rw [List.range_succ, List.filter_append]
      simp only [List.filter_cons, List.filter_nil, hg, Option.getD_some]
      cases hv : v.isSome <;> simp [hv]

/-- The per-index test of the scan is exactly liveness of the key. -/
theorem get_test_iff {t : PairHashTable} (h : PairHashTable.Inv t) (k : Nat × Nat) :
    (((PairHashTable.get t k).getD none).isSome = true) ↔ PairHashTable.has_live t k := by
  classical
  by_cases hl : PairHashTable.has_live t k
  · obtain ⟨i, en, hi, hsl, hdel, hkey⟩ := hl
    have hg := PairHashTable.get_live h hi hsl hdel
    rw [hkey] at hg
    rw [hg]
    simp only [Option.getD_some, Option.isSome_some, true_iff]
    exact ⟨i, en, hi, hsl, hdel, hkey⟩
  · rw [PairHashTable.get_not_live h hl]
    simp [hl]

/-- Membership in the completed scan. -/
theorem edges_scan_mem {t : PairHashTable} (h : PairHashTable.Inv t)
    (f : Nat → Nat × Nat) (n : Nat) {out : List Nat}
    (he : edges_scan t f n = some out) (j : Nat) :
    j ∈ out ↔ j < n ∧ PairHashTable.has_live t (f j) := by
  rw [edges_scan_spec h f n] at he
  injection he with he
  subst he
  rw [List.mem_filter, List.mem_range]
  rw [get_test_iff h (f j)]

/-- The completed scan is strictly ascending. -/
theorem edges_scan_sorted {t : PairHashTable} (h : PairHashTable.Inv t)
    (f : Nat → Nat × Nat) (n : Nat) {out : List Nat}
    (he : edges_scan t f n = some out) : out.Pairwise (· < ·) := by
  rw [edges_scan_spec h f n] at he
  injection he with he
  subst he
  exact pairwise_lt_filter_range n _

/-- A mutating graph operation with its arguments. -/
inductive GOp where
  | add (fm tn : Nat)
  | rem (fm tn : Nat)
  | set (fm tn w : Nat)
  | push (v : Nat)

/-- Run one mutating operation, keeping the resulting graph. -/
def run_gop (g : HashGraph) : GOp → Option HashGraph
  | .add fm tn => (g.add_edge fm tn).map Prod.snd
  | .rem fm tn => (g.remove_edge fm tn).map Prod.snd
  | .set fm tn w => (g.set_edge (fm, tn) w).map Prod.snd
  | .push v => some (g.push_node v).2

/-- Run a sequence of mutating operations from the left. -/
def run_gops (g : HashGraph) : List GOp → Option HashGraph
  | [] => some g
  | op :: ops => (run_gop g op).bind fun g' => run_gops g' ops

/-- Each mutating operation on a graph with a well-formed edge table succeeds
and keeps the edge table well-formed. -/
theorem run_gop_inv {g : HashGraph} (h : PairHashTable.Inv g.edges) (op : GOp) :
    ∃ g', run_gop g op = some g' ∧ PairHashTable.Inv g'.edges := by
  cases op with
  | add fm tn =>
    obtain ⟨b, t', he, hinv, _⟩ := PairHashTable.insert_spec h (fm, tn) 1
    exact ⟨{ g with edges := t' }, by simp [run_gop, add_edge, he], hinv⟩
  | rem fm tn =>
    obtain ⟨b, t', he, hinv, _⟩ := PairHashTable.delete_spec h (fm, tn)
    exact ⟨{ g with edges := t' }, by simp [run_gop, remove_edge, he], hinv⟩
  | set fm tn w =>
    obtain ⟨b, t', he, hinv, _⟩ := PairHashTable.insert_spec h (fm, tn) w
    exact ⟨{ g with edges := t' }, by simp [run_gop, set_edge, he], hinv⟩
  | push v => exact ⟨(g.push_node v).2, rfl, h⟩

/-- Every mutating sequence on a graph with a well-formed edge table runs to
completion and keeps the edge table well-formed. -/
theorem run_gops_inv {g : HashGraph} (h : PairHashTable.Inv g.edges) (ops : List GOp) :
    ∃ g', run_gops g ops = some g' ∧ PairHashTable.Inv g'.edges := by
  induction ops generalizing g with
  | nil => exact ⟨g, rfl, h⟩
  | cons op ops ih =>
    obtain ⟨g1, he1, hinv1⟩ := run_gop_inv h op
    obtain ⟨g', he', hinv'⟩ := ih hinv1
    exact ⟨g', by rw [run_gops, he1, Option.some_bind, he'], hinv'⟩

/-- The edge table of a fresh graph of positive capacity is well-formed. -/
theorem inv_with_capacity_graph {n : Nat} (hn : 0 < n) :
    PairHashTable.Inv (with_capacity n).edges :=
  PairHashTable.inv_with_capacity hn

/-- A successful run of a mutating sequence from a graph with a well-formed
edge table lands on a graph with a well-formed edge table. -/
theorem run_gops_inv_of_eq {g g' : HashGraph} (h : PairHashTable.Inv g.edges)
    (ops : List GOp) (he : run_gops g ops = some g') : PairHashTable.Inv g'.edges := by
  obtain ⟨g2, he2, hinv⟩ := run_gops_inv h ops
  rw [he] at he2
  injection he2 with e
  rw [e]
  exact hinv

/-- On a well-formed edge table `has_edge` returns, and returns `true` exactly
for live keys. -/
theorem has_edge_spec {g : HashGraph} (h : PairHashTable.Inv g.edges) (fm tn : Nat) :
    ∃ b, has_edge g fm tn = some b ∧
      ((b = true) ↔ PairHashTable.has_live g.edges (fm, tn)) := by
  have hs := PairHashTable.get_isSome h (fm, tn)
  cases hg : PairHashTable.get g.edges (fm, tn) with
  | none => rw [hg] at hs; exact absurd hs (by simp)
  | some v =>
    refine ⟨v.isSome, by simp [has_edge, hg], ?_⟩
    have hiff := get_test_iff h (fm, tn)
    rw [hg] at hiff
    simpa using hiff

end HashGraph

/-! ## The lazy searches (src/search/bfs.rs, src/search/dfs.rs) -/

/-- `BFS::is_discovered` / `DFS::is_discovered` (src/search/bfs.rs lines 96-98,
src/search/dfs.rs lines 93-95), exactly as written: the node's discovered word
is masked with `single_bit_mask(node_idx % WORD_BITS)` and the result is
compared against `1` (not against `0`).  The backing `vec![0; count/64 + 1]`
is modeled as a zero-initialized total function from word index to word; every
index the searches read lies inside the allocated length. -/
def is_discovered (d : Nat → Nat) (node_idx : Nat) : Bool :=
  (d (node_idx / WORD_BITS) &&& single_bit_mask (node_idx % WORD_BITS)) == 1

/-- `set_discovered`: or the node's mask into its word. -/
def set_discovered (d : Nat → Nat) (node_idx : Nat) : Nat → Nat :=
  Function.update d (node_idx / WORD_BITS)
    (d (node_idx / WORD_BITS) ||| single_bit_mask (node_idx % WORD_BITS))

/-- `visit_node` (src/search/bfs.rs lines 85-94): `(flag, updated discovered)`;
the flag is true when `is_discovered` was false, and only then the bit is set. -/
def visit_node (d : Nat → Nat) (node_idx : Nat) : Bool × (Nat → Nat) :=
  if is_discovered d node_idx then (false, d) else (true, set_discovered d node_idx)

/-- The comparison against `1` makes `is_discovered` false for every node index
that is not a multiple of the word size, whatever has been recorded: the masked
word is either `0` or the single-bit mask `2^(idx % 64)`, and neither equals
`1` when `idx % 64 ≠ 0`. -/
theorem is_discovered_ne_mod (d : Nat → Nat) (idx : Nat) (h : idx % WORD_BITS ≠ 0) :
    is_discovered d idx = false := by
  unfold is_discovered single_bit_mask
  rw [Nat.shiftLeft_eq, one_mul, Nat.and_two_pow]
  cases hb : (d (idx / WORD_BITS)).testBit (idx % WORD_BITS) with
  | false => simp
  | true =>
    simp only [Bool.toNat_true, one_mul, beq_eq_false_iff_ne, ne_eq]
    intro he
    have h1 : 1 < 2 ^ (idx % WORD_BITS) := Nat.one_lt_two_pow h
    omega

/-- `BFS` (src/search/bfs.rs lines 8-16): the root, the frontier queue (front
of the `VecDeque` at the head of the list), and the discovered bitset.  The
borrowed graph is passed to each call as the `outgoing` neighbor function. -/
structure BFS where
  root_idx : Nat
  queue : List (Nat × Nat)
  discovered : Nat → Nat

namespace BFS

/-- `BFS::new`: frontier seeded with `(root, root)`, nothing discovered. -/
def new (root_idx : Nat) : BFS :=
  { root_idx := root_idx, queue := [(root_idx, root_idx)], discovered := fun _ => 0 }

/-- The `while let` loop of `BFS::next` (src/search/bfs.rs lines 29-40): pop
from the front until `visit_node` reports a first visit, push that node's
not-yet-discovered neighbors on the back paired with it, and return
`((node, predecessor), remaining queue, discovered)`; `none` once the loop
drains the queue.  Structural recursion: a skipped entry only pops. -/
def next_go (outgoing : Nat → List Nat) (d : Nat → Nat) :
    List (Nat × Nat) → Option ((Nat × Nat) × List (Nat × Nat) × (Nat → Nat))
  | [] => none
  | (idx, fm) :: rest =>
    match visit_node d idx with
    | (true, d') =>
      some ((idx, fm),
        rest ++ ((outgoing idx).filter fun o => !(is_discovered d' o)).map fun o => (o, idx),
        d')
    | (false, _) => next_go outgoing d rest

/-- `BFS::next`: the loop above, threading the mutable state. -/
def next (outgoing : Nat → List Nat) (s : BFS) : Option (Nat × Nat) × BFS :=
  match next_go outgoing s.discovered s.queue with
  | none => (none, { s with queue := [] })
  | some (r, q', d') => (some r, { s with queue := q', discovered := d' })

/-- The state after `n` repeated calls to `next`. -/
def state_after (outgoing : Nat → List Nat) (s : BFS) : Nat → BFS
  | 0 => s
  | n + 1 => (next outgoing (state_after outgoing s n)).2

/-- The results of the first `n` repeated calls to `next`, in order. -/
def results (outgoing : Nat → List Nat) (s : BFS) : Nat → List (Option (Nat × Nat))
  | 0 => []
  | n + 1 => results outgoing s n ++ [(next outgoing (state_after outgoing s n)).1]

/-- The predecessor walk of `path_to` (src/search/bfs.rs lines 52-60): push
`from_map[from_tmp]` until the root is reached.  `from_map` has `node_count`
entries, so an out-of-range `from_tmp` is the source's index panic (`none`),
and a walk of more than `node_count` in-range steps has revisited an index and
(being deterministic) loops forever: fuel `node_count + 1` is exact. -/
def walk_from_map (root : Nat) (from_map : Nat → Nat) (node_count : Nat) :
    Nat → Nat → Option (List Nat)
  | 0, _ => none
  | fuel + 1, from_tmp =>
    if from_tmp = root then some []
    else if from_tmp < node_count then
      (walk_from_map root from_map node_count fuel (from_map from_tmp)).map
        fun rest => from_map from_tmp :: rest
    else none

/-- The `while let` loop of `BFS::path_to` (src/search/bfs.rs lines 47-74):
pop entries, record predecessors of first visits in `from_map`, push
undiscovered neighbors, and on popping the target build the reversed
`[target, from, …]` chain.  The inner value is the source's return: `some none`
is `path_to`'s `None` ("empty out", target never popped), `some (some p)` the
path.  The outer `none` is an index panic, an inner-walk divergence, or
exhaustion of `fuel` (the loop itself has no structural measure); every
`some` outcome is the loop's own. -/
def path_to_go (outgoing : Nat → List Nat) (root tn node_count : Nat) :
    Nat → (Nat → Nat) → (Nat → Nat) → List (Nat × Nat) → Option (Option (List Nat))
  | 0, _, _, _ => none
  | _ + 1, _, _, [] => some none
  | fuel + 1, d, from_map, (idx, fm) :: rest =>
    if idx = tn then
      (walk_from_map root from_map node_count (node_count + 1) fm).map
        fun tail => some ((idx :: fm :: tail).reverse)
    else
      match visit_node d idx with
      | (true, d') =>
        if idx < node_count then
          path_to_go outgoing root tn node_count fuel d' (Function.update from_map idx fm)
            (rest ++ ((outgoing idx).filter fun o => !(is_discovered d' o)).map fun o => (o, idx))
        else none
      | (false, _) => path_to_go outgoing root tn node_count fuel d from_map rest

/-- `BFS::path_to`: `from_map` initialized to `usize::MAX` everywhere. -/
def path_to (outgoing : Nat → List Nat) (node_count : Nat) (s : BFS) (to_idx : Nat)
    (fuel : Nat) : Option (Option (List Nat)) :=
  path_to_go outgoing s.root_idx to_idx node_count fuel s.discovered
    (fun _ => USIZE_MAX) s.queue

end BFS

/-- `DFS` (src/search/dfs.rs lines 7-13): root, stack and discovered bitset.
The `Vec` stack pushes and pops at its end; it is modeled with the top at the
head of the list, so the per-node neighbor pushes appear reversed at the head. -/
structure DFS where
  root_idx : Nat
  stack : List (Nat × Nat)
  discovered : Nat → Nat

namespace DFS

/-- `DFS::new`. -/
def new (root_idx : Nat) : DFS :=
  { root_idx := root_idx, stack := [(root_idx, root_idx)], discovered := fun _ => 0 }

/-- The `while let` loop of `DFS::next` (src/search/dfs.rs lines 25-36):
as for BFS, but popping and pushing at the top of the stack. -/
def next_go (outgoing : Nat → List Nat) (d : Nat → Nat) :
    List (Nat × Nat) → Option ((Nat × Nat) × List (Nat × Nat) × (Nat → Nat))
  | [] => none
  | (idx, fm) :: rest =>
    match visit_node d idx with
    | (true, d') =>
      some ((idx, fm),
        ((((outgoing idx).filter fun o => !(is_discovered d' o)).map fun o => (o, idx)).reverse)
          ++ rest,
        d')
    | (false, _) => next_go outgoing d rest

/-- `DFS::next`. -/
def next (outgoing : Nat → List Nat) (s : DFS) : Option (Nat × Nat) × DFS :=
  match next_go outgoing s.discovered s.stack with
  | none => (none, { s with stack := [] })
  | some (r, q', d') => (some r, { s with stack := q', discovered := d' })

/-- The state after `n` repeated calls to `next`. -/
def state_after (outgoing : Nat → List Nat) (s : DFS) : Nat → DFS
  | 0 => s
  | n + 1 => (next outgoing (state_after outgoing s n)).2

/-- The results of the first `n` repeated calls to `next`, in order. -/
def results (outgoing : Nat → List Nat) (s : DFS) : Nat → List (Option (Nat × Nat))
  | 0 => []
  | n + 1 => results outgoing s n ++ [(next outgoing (state_after outgoing s n)).1]

end DFS

namespace BitGraph

/-- Push a list of node values in order (the `for i in … push_node(i)` loops
of the tests). -/
def push_nodes (g : BitGraph) (vs : List Nat) : BitGraph :=
  vs.foldl (fun g v => (g.push_node v).2) g

/-- Add a list of edges in order (straight-line `add_edge` call sequences). -/
def add_edges (g : BitGraph) (es : List (Nat × Nat)) : BitGraph :=
  es.foldl (fun g e => (g.add_edge e.1 e.2).2) g

end BitGraph

/-- Three nodes with edges `(0,1), (0,2), (1,2)`: node 2 is reachable both
directly and through node 1. -/
def g3dup : BitGraph :=
  ((BitGraph.with_capacity 16).push_nodes [0, 1, 2]).add_edges [(0, 1), (0, 2), (1, 2)]

/-- Three nodes with the two-cycle `(1,2), (2,1)`. -/
def gcyc : BitGraph :=
  ((BitGraph.with_capacity 16).push_nodes [0, 1, 2]).add_edges [(1, 2), (2, 1)]

/-- The 15-node graph of the spec's Scenario D (and of the `bfs.rs` test). -/
def g15 : BitGraph :=
  ((BitGraph.with_capacity 16).push_nodes
      [0, 1, 2, 3, 4, 5, 6, 7, 8, 9, 10, 11, 12, 13, 14]).add_edges
    [(0, 2), (0, 1), (2, 4), (3, 8), (8, 5), (1, 3), (3, 5), (5, 0)]

/-- On the two-cycle, a BFS step from any one-entry frontier inside the cycle
emits a node and leaves the opposite one-entry frontier: nodes 1 and 2 are
never seen as discovered (`is_discovered_ne_mod`), so the frontier never
drains. -/
theorem bfs_cycle_step (r : Nat) (d : Nat → Nat) (q : List (Nat × Nat))
    (hq : q = [(1, 1)] ∨ q = [(1, 2)] ∨ q = [(2, 1)]) :
    (BFS.next gcyc.outgoing_edges_of ⟨r, q, d⟩).1.isSome = true ∧
      ((BFS.next gcyc.outgoing_edges_of ⟨r, q, d⟩).2.queue = [(1, 2)] ∨
        (BFS.next gcyc.outgoing_edges_of ⟨r, q, d⟩).2.queue = [(2, 1)]) := by
  have hd1 : ∀ d0 : Nat → Nat, is_discovered d0 1 = false :=
    fun d0 => is_discovered_ne_mod d0 1 (by decide)
  have hd2 : ∀ d0 : Nat → Nat, is_discovered d0 2 = false :=
    fun d0 => is_discovered_ne_mod d0 2 (by decide)
  have ho1 : gcyc.outgoing_edges_of 1 = [2] := by decide
  have ho2 : gcyc.outgoing_edges_of 2 = [1] := by decide
  rcases hq with rfl | rfl | rfl <;>
    simp [BFS.next, BFS.next_go, visit_node, hd1, hd2, ho1, ho2]

/-- The same step fact for DFS on the two-cycle. -/
theorem dfs_cycle_step (r : Nat) (d : Nat → Nat) (q : List (Nat × Nat))
    (hq : q = [(1, 1)] ∨ q = [(1, 2)] ∨ q = [(2, 1)]) :
    (DFS.next gcyc.outgoing_edges_of ⟨r, q, d⟩).1.isSome = true ∧
      ((DFS.next gcyc.outgoing_edges_of ⟨r, q, d⟩).2.stack = [(1, 2)] ∨
        (DFS.next gcyc.outgoing_edges_of ⟨r, q, d⟩).2.stack = [(2, 1)]) := by
  have hd1 : ∀ d0 : Nat → Nat, is_discovered d0 1 = false :=
    fun d0 => is_discovered_ne_mod d0 1 (by decide)
  have hd2 : ∀ d0 : Nat → Nat, is_discovered d0 2 = false :=
    fun d0 => is_discovered_ne_mod d0 2 (by decide)
  have ho1 : gcyc.outgoing_edges_of 1 = [2] := by decide
  have ho2 : gcyc.outgoing_edges_of 2 = [1] := by decide
  rcases hq with rfl | rfl | rfl <;>
    simp [DFS.next, DFS.next_go, visit_node, hd1, hd2, ho1, ho2]

/-- The BFS frontier on the two-cycle is forever one of three one-entry
queues. -/
theorem bfs_cycle_orbit (n : Nat) :
    (BFS.state_after gcyc.outgoing_edges_of (BFS.new 1) n).queue = [(1, 1)] ∨
      (BFS.state_after gcyc.outgoing_edges_of (BFS.new 1) n).queue = [(1, 2)] ∨
      (BFS.state_after gcyc.outgoing_edges_of (BFS.new 1) n).queue = [(2, 1)] := by
  induction n with
  | zero => exact Or.inl rfl
  | succ n ih =>
    exact Or.inr (bfs_cycle_step _ _ _ ih).2

/-- The DFS stack on the two-cycle is forever one of three one-entry stacks. -/
theorem dfs_cycle_orbit (n : Nat) :
    (DFS.state_after gcyc.outgoing_edges_of (DFS.new 1) n).stack = [(1, 1)] ∨
      (DFS.state_after gcyc.outgoing_edges_of (DFS.new 1) n).stack = [(1, 2)] ∨
      (DFS.state_after gcyc.outgoing_edges_of (DFS.new 1) n).stack = [(2, 1)] := by
  induction n with
  | zero => exact Or.inl rfl
  | succ n ih =>
    exact Or.inr (dfs_cycle_step _ _ _ ih).2

/-! ## The claims -/

/-- C1: the spec claims a node index already returned by `BFS::next` (or
`DFS::next`) is never returned again.  Refuted by the code: `is_discovered`
compares the masked word against `1` instead of `0`, so on three nodes with
edges `(0,1), (0,2), (1,2)` a breadth-first drive from root 0 returns node 2
on both its third and fourth calls (and a depth-first drive on its second and
fourth): the returned node sequence has a duplicate. -/
theorem C1_search_returns_duplicates :
    BFS.results g3dup.outgoing_edges_of (BFS.new 0) 4 =
        [some (0, 0), some (1, 0), some (2, 0), some (2, 1)] ∧
      DFS.results g3dup.outgoing_edges_of (DFS.new 0) 4 =
        [some (0, 0), some (2, 0), some (1, 0), some (2, 1)] := by
  decide

/-- C2: the spec claims repeated `next()` calls always reach "no more nodes"
after finitely many calls.  Refuted by the code: on the two-node cycle
`(1,2), (2,1)` searched from root 1, nodes 1 and 2 are never seen as
discovered (`is_discovered` compares against `1`), so every call — BFS and
DFS alike — pops a node, re-enqueues its neighbor and returns `some`: no call
ever returns `none`. -/
theorem C2_search_never_exhausts :
    (∀ n, (BFS.next gcyc.outgoing_edges_of
        (BFS.state_after gcyc.outgoing_edges_of (BFS.new 1) n)).1.isSome = true) ∧
      (∀ n, (DFS.next gcyc.outgoing_edges_of
        (DFS.state_after gcyc.outgoing_edges_of (DFS.new 1) n)).1.isSome = true) :=
  ⟨fun n => (bfs_cycle_step _ _ _ (bfs_cycle_orbit n)).1,
    fun n => (dfs_cycle_step _ _ _ (dfs_cycle_orbit n)).1⟩

/-- C5: when an insert crosses the 0.75 load factor the table is rebuilt at
double capacity; the rebuilt table has exactly the same live edges with their
exact weights (so tombstoned keys stay absent), and the triggering insert
completes with its key live at the written weight and every other key's live
entries unchanged. -/
theorem C5_resize_preserves_live_edges {t : PairHashTable} (h : PairHashTable.Inv t)
    (hover : t.count + 1 > max_load_count t.cap) (key : Nat × Nat) (w : Nat) :
    (∃ t1, PairHashTable.resize t (t.cap * GROW_FACTOR) = some t1 ∧
      ∀ k m, PairHashTable.live_with t1 k m ↔ PairHashTable.live_with t k m) ∧
    (∃ b t', PairHashTable.insert t key w = some (b, t') ∧ PairHashTable.Inv t' ∧
      t'.cap = t.cap * GROW_FACTOR ∧
      PairHashTable.live_with t' key ⟨key.1, key.2, w⟩ ∧
      ∀ k' m, k' ≠ key →
        (PairHashTable.live_with t' k' m ↔ PairHashTable.live_with t k' m)) := by
  obtain ⟨t1, hres, hinv1, hcap1, hcnt1, hpres1⟩ := PairHashTable.resize_spec h
  have hroom : t1.count + 1 < t1.cap := by
    have h1 := h.count_lt
    have h2 := h.cap_pos
    rw [hcap1]
    unfold GROW_FACTOR
    omega
  obtain ⟨i, hfind, hi, hinv', hcap', hcnt', hlive', hpres', _⟩ :=
    PairHashTable.step_spec hinv1 key w hroom
  refine ⟨⟨t1, hres, hpres1⟩,
    (t1.slot i).isSome, PairHashTable.write_entry t1 key w i, ?_, hinv', ?_, hlive', ?_⟩
  · simp only [PairHashTable.insert, if_pos hover, hres, hfind]
  · rw [hcap', hcap1]
  · intro k' m hk'
    rw [hpres' k' m hk', hpres1 k' m]

/-- C5 at a concrete input: the capacity-4 table holding three live entries
crosses the load factor on the next insert, which succeeds and preserves the
live edges. -/
theorem C5_resize_preserves_live_edges_witness :
    (∃ t1, PairHashTable.resize PairHashTable.c5t (PairHashTable.c5t.cap * GROW_FACTOR) =
        some t1 ∧
      ∀ k m, PairHashTable.live_with t1 k m ↔ PairHashTable.live_with PairHashTable.c5t k m) ∧
    (∃ b t', PairHashTable.insert PairHashTable.c5t (2, 3) 7 = some (b, t') ∧
      PairHashTable.Inv t' ∧
      t'.cap = PairHashTable.c5t.cap * GROW_FACTOR ∧
      PairHashTable.live_with t' (2, 3) ⟨2, 3, 7⟩ ∧
      ∀ k' m, k' ≠ (2, 3) →
        (PairHashTable.live_with t' k' m ↔ PairHashTable.live_with PairHashTable.c5t k' m)) :=
  C5_resize_preserves_live_edges PairHashTable.c5t_inv (by decide) (2, 3) 7

/-- C9: on the 15-node Scenario D graph, a BFS from root 0 finds the
length-4 path `[0, 1, 3, 5]` to node 5, reports node 10 unreachable from
`path_to` (the source's `None`), and a drive for node 10 by repeated `next`
calls ends with "no more nodes" on the ninth call. -/
theorem C9_scenario_d :
    BFS.path_to g15.outgoing_edges_of g15.count (BFS.new 0) 5 100 =
        some (some [0, 1, 3, 5]) ∧
      BFS.path_to g15.outgoing_edges_of g15.count (BFS.new 0) 10 100 = some none ∧
      (BFS.next g15.outgoing_edges_of
        (BFS.state_after g15.outgoing_edges_of (BFS.new 0) 8)).1 = none := by
  decide

/-- C10: after every sequence of insert/delete/get operations on a table of
positive capacity, `count` equals the number of occupied slots and stays below
capacity, some slot is `None`, and both probe loops return for every key. -/
theorem C10_table_invariant (n : Nat) (ops : List PairHashTable.TOp) (hn : 0 < n) :
    ∃ t', PairHashTable.run_ops (PairHashTable.with_capacity n) ops = some t' ∧
      t'.count = PairHashTable.countSome t'.table ∧ t'.count < t'.cap ∧
      (∃ i, i < t'.cap ∧ t'.slot i = none) ∧
      (∀ key, (PairHashTable.index_of t' key).isSome = true ∧
        (PairHashTable.index_of_insertion t' key).isSome = true) := by
  obtain ⟨t', he, hinv⟩ := PairHashTable.run_ops_inv (PairHashTable.inv_with_capacity hn) ops
  exact ⟨t', he, hinv.count_eq, hinv.count_lt, PairHashTable.exists_none_slot hinv,
    fun key => ⟨PairHashTable.index_of_total hinv key,
      PairHashTable.index_of_insertion_total hinv key⟩⟩

/-- C10 at a concrete input: capacity 4 with an insert, a delete, a re-insert
and a lookup. -/
theorem C10_table_invariant_witness :
    ∃ t', PairHashTable.run_ops (PairHashTable.with_capacity 4)
        [PairHashTable.TOp.ins (0, 1) 1, PairHashTable.TOp.del (0, 1),
          PairHashTable.TOp.ins (2, 3) 5, PairHashTable.TOp.qry (0, 1)] = some t' ∧
      t'.count = PairHashTable.countSome t'.table ∧ t'.count < t'.cap ∧
      (∃ i, i < t'.cap ∧ t'.slot i = none) ∧
      (∀ key, (PairHashTable.index_of t' key).isSome = true ∧
        (PairHashTable.index_of_insertion t' key).isSome = true) :=
  C10_table_invariant 4
    [PairHashTable.TOp.ins (0, 1) 1, PairHashTable.TOp.del (0, 1),
      PairHashTable.TOp.ins (2, 3) 5, PairHashTable.TOp.qry (0, 1)] (by decide)

/-- C3 (corrected): for the dense and bit backends, `add_edge`, `remove_edge`
and `set_edge` return exactly whether the edge existed immediately before the
call, in every state.  For the hash backend this holds for `remove_edge`, while
`add_edge`/`set_edge` return `true` whenever an edge existed but can also
return `true` without one (the probe site can hold a tombstone; see the
counterexample): only the implication holds. -/
theorem C3_edge_ops_return_prior_presence :
    (∀ (g : BitGraph) (u v : Nat) (w : Bool),
      (g.add_edge u v).1 = g.has_edge u v ∧
      (g.remove_edge u v).1 = g.has_edge u v ∧
      (g.set_edge u v w).1 = g.has_edge u v) ∧
    (∀ (g : AdjGraph) (u v w : Nat),
      (g.add_edge u v).1 = g.has_edge u v ∧
      (g.remove_edge u v).1 = g.has_edge u v ∧
      (g.set_edge u v w).1 = g.has_edge u v) ∧
    (∀ (n : Nat) (ops : List HashGraph.GOp) (g : HashGraph), 0 < n →
      HashGraph.run_gops (HashGraph.with_capacity n) ops = some g →
      ∀ u v w,
        (∃ br g', g.remove_edge u v = some (br, g') ∧ g.has_edge u v = some br) ∧
        (∃ ba g', g.add_edge u v = some (ba, g') ∧
          (g.has_edge u v = some true → ba = true)) ∧
        (∃ bs g', g.set_edge (u, v) w = some (bs, g') ∧
          (g.has_edge u v = some true → bs = true))) := by
  refine ⟨?_, ?_, ?_⟩
  · intro g u v w
    exact ⟨BitGraph.add_edge_fst g u v, BitGraph.remove_edge_fst g u v,
      BitGraph.set_edge_fst g u v w⟩
  · intro g u v w
    exact ⟨AdjGraph.add_edge_fst_adj g u v, AdjGraph.remove_edge_fst_adj g u v,
      AdjGraph.set_edge_fst_adj g u v w⟩
  · intro n ops g hn hrun u v w
    have h0 : PairHashTable.Inv (HashGraph.with_capacity n).edges :=
      PairHashTable.inv_with_capacity hn
    have hinv := HashGraph.run_gops_inv_of_eq h0 ops hrun
    obtain ⟨hb, hhe, hbiff⟩ := HashGraph.has_edge_spec hinv u v
    refine ⟨?_, ?_, ?_⟩
    · obtain ⟨br, t', hdel, _, hbr, _, _⟩ := PairHashTable.delete_spec hinv (u, v)
      refine ⟨br, { g with edges := t' }, by simp [HashGraph.remove_edge, hdel], ?_⟩
      have he : br = hb := by
        have h2 : (br = true) ↔ (hb = true) := hbr.trans hbiff.symm
        cases br <;> cases hb <;> simp_all
      rw [hhe, he]
    · obtain ⟨ba, t', hins, _, _, _, hba⟩ := PairHashTable.insert_spec hinv (u, v) 1
      refine ⟨ba, { g with edges := t' }, by simp [HashGraph.add_edge, hins], ?_⟩
      intro het
      rw [hhe] at het
      injection het with het
      exact hba (hbiff.mp het)
    · obtain ⟨bs, t', hins, _, _, _, hbs⟩ := PairHashTable.insert_spec hinv (u, v) w
      refine ⟨bs, { g with edges := t' }, by simp [HashGraph.set_edge, hins], ?_⟩
      intro het
      rw [hhe] at het
      injection het with het
      exact hbs (hbiff.mp het)

/-- C3's original "if and only if" is false for the hash backend: on a fresh
capacity-16 graph, add edge (0,1), remove it (leaving a tombstone), and ask
again: `has_edge` is `false`, yet the second `add_edge` returns `true` because
the tombstoned probe site is occupied. -/
theorem C3_hash_add_counterexample :
    (((HashGraph.with_capacity 16).add_edge 0 1).bind fun r1 =>
      ((r1.2.remove_edge 0 1).bind fun r2 =>
        (r2.2.has_edge 0 1).bind fun hb =>
          (r2.2.add_edge 0 1).map fun r3 => (hb, r3.1))) = some (false, true) := by
  decide

/-- C4: in every reachable state of every backend and for all node indices
below the node count, `v ∈ outgoing_edges_of u` exactly when
`u ∈ incoming_edges_of v` (for the hash backend both listings complete and
agree). -/
theorem C4_transpose_agreement :
    (∀ (g : BitGraph), BitGraph.Reach g → ∀ u v, u < g.count → v < g.count →
      (v ∈ g.outgoing_edges_of u ↔ u ∈ g.incoming_edges_of v)) ∧
    (∀ (g : AdjGraph), AdjGraph.Reach g → ∀ u v, u < g.count → v < g.count →
      (v ∈ g.outgoing_edges_of u ↔ u ∈ g.incoming_edges_of v)) ∧
    (∀ (n : Nat) (ops : List HashGraph.GOp) (g : HashGraph), 0 < n →
      HashGraph.run_gops (HashGraph.with_capacity n) ops = some g →
      ∀ u v, u < g.count → v < g.count →
      ∃ out inc, g.outgoing_edges_of u = some out ∧ g.incoming_edges_of v = some inc ∧
        (v ∈ out ↔ u ∈ inc)) := by
  refine ⟨?_, ?_, ?_⟩
  · intro g hr u v hu hv
    have hW := BitGraph.reach_words_lt hr
    have hT := BitGraph.reach_transpose_inv hr
    have hc := BitGraph.reach_count_le hr
    have hucap : u < g.cap := lt_of_lt_of_le hu hc
    have hvcap : v < g.cap := lt_of_lt_of_le hv hc
    rw [BitGraph.mem_outgoing g hW, BitGraph.mem_incoming g hW, hT u v hucap hvcap]
    constructor
    · rintro ⟨_, h2⟩
      exact ⟨hucap, h2⟩
    · rintro ⟨_, h2⟩
      exact ⟨hvcap, h2⟩
  · intro g hr u v hu hv
    have hT := AdjGraph.reach_transpose_inv_adj hr
    have hc := AdjGraph.reach_count_le_adj hr
    rw [AdjGraph.mem_outgoing_adj, AdjGraph.mem_incoming_adj, hT u v (by omega) (by omega)]
    constructor
    · rintro ⟨_, h2⟩
      exact ⟨hu, h2⟩
    · rintro ⟨_, h2⟩
      exact ⟨hv, h2⟩
  · intro n ops g hn hrun u v hu hv
    have h0 : PairHashTable.Inv (HashGraph.with_capacity n).edges :=
      PairHashTable.inv_with_capacity hn
    have hinv := HashGraph.run_gops_inv_of_eq h0 ops hrun
    have hout := HashGraph.edges_scan_spec hinv (fun i => (u, i)) g.count
    have hinc := HashGraph.edges_scan_spec hinv (fun i => (i, v)) g.count
    refine ⟨_, _, hout, hinc, ?_⟩
    rw [HashGraph.edges_scan_mem hinv _ _ hout v, HashGraph.edges_scan_mem hinv _ _ hinc u]
    constructor
    · rintro ⟨_, h2⟩
      exact ⟨hu, h2⟩
    · rintro ⟨_, h2⟩
      exact ⟨hv, h2⟩

/-- C6: in every reachable state of every backend, `outgoing_edges_of` and
`incoming_edges_of` list node indices in strictly ascending (hence
duplicate-free) order (for the hash backend the listings also complete). -/
theorem C6_neighbor_lists_ascending :
    (∀ (g : BitGraph), BitGraph.Reach g → ∀ n : Nat,
      (g.outgoing_edges_of n).Pairwise (· < ·) ∧
      (g.incoming_edges_of n).Pairwise (· < ·)) ∧
    (∀ (g : AdjGraph) (n : Nat),
      (g.outgoing_edges_of n).Pairwise (· < ·) ∧
      (g.incoming_edges_of n).Pairwise (· < ·)) ∧
    (∀ (c : Nat) (ops : List HashGraph.GOp) (g : HashGraph), 0 < c →
      HashGraph.run_gops (HashGraph.with_capacity c) ops = some g →
      ∀ n, ∃ out inc, g.outgoing_edges_of n = some out ∧
        g.incoming_edges_of n = some inc ∧
        out.Pairwise (· < ·) ∧ inc.Pairwise (· < ·)) := by
  refine ⟨?_, ?_, ?_⟩
  · intro g hr n
    have hW := BitGraph.reach_words_lt hr
    exact ⟨BitGraph.row_scan_sorted g.edges hW.1 g.cap n,
      BitGraph.row_scan_sorted g.edges_transpose hW.2 g.cap n⟩
  · intro g n
    exact ⟨pairwise_lt_filter_range g.count _, pairwise_lt_filter_range g.count _⟩
  · intro c ops g hc hrun n
    have h0 : PairHashTable.Inv (HashGraph.with_capacity c).edges :=
      PairHashTable.inv_with_capacity hc
    have hinv := HashGraph.run_gops_inv_of_eq h0 ops hrun
    have hout := HashGraph.edges_scan_spec hinv (fun i => (n, i)) g.count
    have hinc := HashGraph.edges_scan_spec hinv (fun i => (i, n)) g.count
    exact ⟨_, _, hout, hinc, HashGraph.edges_scan_sorted hinv _ _ hout,
      HashGraph.edges_scan_sorted hinv _ _ hinc⟩

/-- C7: in every backend, adding edge `(u, v)` makes `has_edge(u, v)` true,
and removing it afterwards makes it false again — for the hash backend in
every reachable state (deletion only tombstones the slot, yet the lookup
reports the key dead), for the other two backends in every state. -/
theorem C7_round_trip :
    (∀ (g : BitGraph) (u v : Nat),
      ((g.add_edge u v).2.has_edge u v) = true ∧
      (((g.add_edge u v).2.remove_edge u v).2.has_edge u v) = false) ∧
    (∀ (g : AdjGraph) (u v : Nat),
      ((g.add_edge u v).2.has_edge u v) = true ∧
      (((g.add_edge u v).2.remove_edge u v).2.has_edge u v) = false) ∧
    (∀ (c : Nat) (ops : List HashGraph.GOp) (g : HashGraph), 0 < c →
      HashGraph.run_gops (HashGraph.with_capacity c) ops = some g →
      ∀ u v, ∃ b1 g1, g.add_edge u v = some (b1, g1) ∧ g1.has_edge u v = some true ∧
        ∃ b2 g2, g1.remove_edge u v = some (b2, g2) ∧ g2.has_edge u v = some false) := by
  refine ⟨?_, ?_, ?_⟩
  · intro g u v
    constructor
    · rw [BitGraph.has_edge_eq_edge_bit, BitGraph.edge_bit_add]
      simp
    · rw [BitGraph.has_edge_eq_edge_bit, BitGraph.edge_bit_remove]
      simp
  · intro g u v
    constructor
    · simp [AdjGraph.has_edge, AdjGraph.add_edge, AdjGraph.set_edge_of_both_edges,
        AdjGraph.set_edge_of_both_cap, Function.update_same]
    · simp [AdjGraph.has_edge, AdjGraph.add_edge, AdjGraph.remove_edge,
        AdjGraph.set_edge_of_both_edges, AdjGraph.set_edge_of_both_cap,
        Function.update_same]
  · intro c ops g hc hrun u v
    have h0 : PairHashTable.Inv (HashGraph.with_capacity c).edges :=
      PairHashTable.inv_with_capacity hc
    have hinv := HashGraph.run_gops_inv_of_eq h0 ops hrun
    obtain ⟨b1, t1, hins, hinv1, hlive1, _, _⟩ := PairHashTable.insert_spec hinv (u, v) 1
    have hinv1g : PairHashTable.Inv ({ g with edges := t1 } : HashGraph).edges := hinv1
    refine ⟨b1, { g with edges := t1 }, by simp [HashGraph.add_edge, hins], ?_, ?_⟩
    · obtain ⟨hb, hhe, hiff⟩ := HashGraph.has_edge_spec hinv1g u v
      have hbt : hb = true :=
        hiff.mpr ((PairHashTable.has_live_iff t1 (u, v)).mpr ⟨_, hlive1⟩)
      rw [hhe, hbt]
    · obtain ⟨b2, t2, hdel, hinv2, _, hdead2, _⟩ := PairHashTable.delete_spec hinv1 (u, v)
      have hinv2g : PairHashTable.Inv ({ g with edges := t2 } : HashGraph).edges := hinv2
      refine ⟨b2, { g with edges := t2 }, by simp [HashGraph.remove_edge, hdel], ?_⟩
      obtain ⟨hb2, hhe2, hiff2⟩ := HashGraph.has_edge_spec hinv2g u v
      have hbf : hb2 = false := by
        have hne : hb2 ≠ true := fun ht => hdead2 (hiff2.mp ht)
        cases hb2
        · rfl
        · exact absurd rfl hne
      rw [hhe2, hbf]

/-- C8: in the bit-packed backend of capacity `cap`, edge `(from, to)` lives at
absolute bit address `cap*from + to`: the word index is the address divided by
the 64-bit word size and the bit offset its remainder, `has_edge` reads exactly
that bit of the forward array, and `add_edge`/`remove_edge` set/clear exactly
that bit (every other bit address is untouched). -/
theorem C8_bit_addressing (g : BitGraph) (fm tn : Nat) :
    BitGraph.word_index g.cap fm tn = (g.cap * fm + tn) / 64 ∧
    BitGraph.bit_offset g.cap fm tn = (g.cap * fm + tn) % 64 ∧
    g.has_edge fm tn = (g.edges ((g.cap * fm + tn) / 64)).testBit ((g.cap * fm + tn) % 64) ∧
    (∀ a, ((g.add_edge fm tn).2.edges (a / 64)).testBit (a % 64) =
      (((g.edges (a / 64)).testBit (a % 64)) || decide (a = g.cap * fm + tn))) ∧
    (∀ a, ((g.remove_edge fm tn).2.edges (a / 64)).testBit (a % 64) =
      (((g.edges (a / 64)).testBit (a % 64)) && decide (a ≠ g.cap * fm + tn))) := by
  refine ⟨BitGraph.word_index_eq g.cap fm tn, BitGraph.bit_offset_eq g.cap fm tn, ?_, ?_, ?_⟩
  · rw [BitGraph.has_edge_eq_edge_bit]
    rfl
  · intro a
    rw [BitGraph.add_edge_snd_edges, BitGraph.word_index_eq, BitGraph.bit_offset_eq]
    exact BitGraph.set_bit_update_testBit g.edges (g.cap * fm + tn) a
  · intro a
    rw [BitGraph.remove_edge_snd_edges, BitGraph.word_index_eq, BitGraph.bit_offset_eq]
    exact BitGraph.unset_bit_update_testBit g.edges (g.cap * fm + tn) a

end BitGraphRs
